import Mathlib

/-!
Verification of the conversation reuse and persistence core of the
CLIProxyAPI gemini-web provider adapter.

The Go sources are shallowly embedded as Lean functions:

* strings are Lean `String`s; Go's ASCII-range `strings.ToLower`,
  `strings.TrimSpace` and `strings.EqualFold` are modelled on the ASCII
  characters they affect for the role/model vocabulary of this program;
* Go maps are modelled as association lists with first-match lookup and
  replace-or-append insertion (`mlookup` / `minsert`);
* the SHA-256 prefix hashes (whose implementation lives outside the
  embedded files) are modelled per the specification as the injective
  tuple of their digest inputs: salt identifier, model name, and the
  normalized role/text sequence.  Hash collisions are idealized away;
* the BoltDB file is modelled as three in-memory keyspaces holding typed
  values; JSON (un)marshalling is modelled as typed injection/projection.
-/

namespace GeminiWeb

/-! ## ASCII string primitives (Go `strings` package operations) -/

/-- Go `strings.ToLower`, modelled on the ASCII range via `Char.toLower`. -/
def lowerStr (s : String) : String := String.mk (s.data.map Char.toLower)

/-- Go `unicode.IsSpace` on the ASCII range: space, \t, \n, \v, \f, \r. -/
def isSpaceChar (c : Char) : Bool :=
  c.toNat = 32 || c.toNat = 9 || c.toNat = 10 || c.toNat = 11 || c.toNat = 12 || c.toNat = 13

/-- Trim leading and trailing whitespace from a character list. -/
def trimCharList (l : List Char) : List Char :=
  ((l.dropWhile isSpaceChar).reverse.dropWhile isSpaceChar).reverse

/-- Go `strings.TrimSpace`. -/
def trimStr (s : String) : String := String.mk (trimCharList s.data)

/-- Go `strings.EqualFold`, modelled as equality after ASCII lowering. -/
def equalFold (a b : String) : Bool := lowerStr a = lowerStr b

/-! ## Data model (`conversation` package) -/

/-- A chat message: a role/text pair (conversation.Message). -/
structure Message where
  role : String
  text : String
deriving DecidableEq, Repr

/-- The persisted message form (conversation.StoredMessage). -/
structure StoredMessage where
  role : String
  content : String
deriving DecidableEq, Repr

/-- One persisted session (conversation.ConversationRecord).  Timestamps are
abstracted to naturals. -/
structure ConversationRecord where
  model : String
  clientID : String
  metadata : List String
  messages : List StoredMessage
  createdAt : Nat
  updatedAt : Nat
deriving DecidableEq, Repr

/-- Modelled from the spec: `ToStoredMessages` (source not under src/);
the persisted form keeps role and text verbatim under the field name
`content`. -/
def ToStoredMessages (msgs : List Message) : List StoredMessage :=
  msgs.map fun m => ⟨m.role, m.text⟩

/-- Modelled from the spec: `StoredToMessages` (source not under src/);
inverse renaming of `ToStoredMessages`, as used by persistConversation. -/
def StoredToMessages (stored : List StoredMessage) : List Message :=
  stored.map fun m => ⟨m.role, m.content⟩

/-! ## Normalization (prompt.go) and sanitization -/

/-- prompt.go `NormalizeRole`: lowercase; the alias `model` maps to
`assistant`.  (The source does not trim whitespace.) -/
def NormalizeRole (role : String) : String :=
  let r := lowerStr role
  if r = "model" then "assistant" else r

/-- prompt.go `NeedRoleTags`: true iff some message's lowercased role is
not `user`. -/
def NeedRoleTags (msgs : List Message) : Bool :=
  msgs.any fun m => !(lowerStr m.role == "user")

/-- Modelled from the spec: `SanitizeAssistantMessages` (source not under
src/).  "Preserve the input except that no two consecutive messages may
share the same role `assistant`; when they do, concatenate their text
with a single newline." -/
def SanitizeAssistantMessages : List Message → List Message
  | [] => []
  | m :: rest =>
    match SanitizeAssistantMessages rest with
    | [] => [m]
    | m2 :: tail =>
      if NormalizeRole m.role = "assistant" ∧ NormalizeRole m2.role = "assistant" then
        ⟨m.role, m.text ++ "\n" ++ m2.text⟩ :: tail
      else
        m :: m2 :: tail

/-! ## Prompt assembly (prompt.go) -/

/-- prompt.go `AddRoleTag`. -/
def AddRoleTag (role content : String) (unclose : Bool) : String :=
  let r := if role = "" then "user" else role
  if unclose then "<|im_start|>" ++ r ++ "\n" ++ content
  else "<|im_start|>" ++ r ++ "\n" ++ content ++ "\n<|im_end|>"

/-- prompt.go `BuildPrompt`. -/
def BuildPrompt (msgs : List Message) (tagged appendAssistant : Bool) : String :=
  if msgs = [] then
    if tagged ∧ appendAssistant then AddRoleTag "assistant" "" true else ""
  else if !tagged then
    String.intercalate "\n" (msgs.map (·.text))
  else
    trimStr (String.join (msgs.map fun m => AddRoleTag m.role m.text false ++ "\n")
      ++ (if appendAssistant then AddRoleTag "assistant" "" true else ""))

/-- Matcher for the prompt.go regex `(?s)<\s*[^>]+>`: after a later
position holding `<`, at least one character other than `>` followed by a
`>`.  (`\s*` followed by `[^>]+` is equivalent to one or more arbitrary
non-`>` characters.) -/
def hasGtAfterOne : List Char → Bool
  | [] => false
  | '>' :: _ => false
  | _ :: rest => rest.any (· = '>')

/-- Scan for a match of `(?s)<\s*[^>]+>` anywhere in the text. -/
def hasXMLTag : List Char → Bool
  | [] => false
  | '<' :: rest => hasGtAfterOne rest || hasXMLTag rest
  | _ :: rest => hasXMLTag rest

/-- prompt.go `AppendXMLWrapHintIfNeeded`. -/
def AppendXMLWrapHintIfNeeded (msgs : List Message) (disable : Bool) : List Message :=
  if disable then msgs
  else
    let xmlWrapHint :=
      "\nFor any xml block, e.g. tool call, always wrap it with: \n`````xml\n...\n`````\n"
    msgs.map fun m => if hasXMLTag m.text.data then ⟨m.role, m.text ++ xmlWrapHint⟩ else m

/-! ## Go map model: association lists -/

/-- First-match lookup (Go `m[k]` comma-ok form). -/
def mlookup {α β : Type} [DecidableEq α] : List (α × β) → α → Option β
  | [], _ => none
  | (k, v) :: rest, key => if key = k then some v else mlookup rest key

/-- Replace-or-append insertion (Go `m[k] = v`). -/
def minsert {α β : Type} [DecidableEq α] : List (α × β) → α → β → List (α × β)
  | [], key, val => [(key, val)]
  | (k, v) :: rest, key, val =>
    if key = k then (k, val) :: rest else (k, v) :: minsert rest key val

/-- Go `m[k]` on a `map[string]bool`, defaulting to `false`. -/
def mhas {α : Type} [DecidableEq α] (items : List (α × Bool)) (key : α) : Bool :=
  (mlookup items key).getD false

/-! ## Prefix hashing -/

/-- Modelled from the spec: the SHA-256 prefix hash (source not under
src/).  The digest input concatenates, per stored message in order, the
normalized role and the text, salted by an identifier and the model name.
The digest is modelled as the injective tuple of these inputs;
collision-freeness of SHA-256 is idealized as constructor injectivity. -/
structure HashVal where
  salt : String
  model : String
  body : List (String × String)
deriving DecidableEq, Repr

/-- Modelled from the spec: `HashConversationForAccount id model msgs`
(source not under src/): hash salted by an account identifier. -/
def HashConversationForAccount (id model : String) (stored : List StoredMessage) : HashVal :=
  ⟨id, model, stored.map fun m => (NormalizeRole m.role, m.content)⟩

/-! ## Lookup engine (lookup source file, FindByMessageHash etc.)

Item keys and index keys are hash strings in Go; they are modelled as
`HashVal`.  The constant `"hash:"` key namespace of the index is carried
by the key type itself.  The Go empty-string "not found" result is
modelled as `none`. -/

/-- The index-indirection probe of `FindByMessageHash`: an index entry
counts only if the key it points at is present in items. -/
def probeIdx (items : List (HashVal × Bool)) (index : List (HashVal × HashVal))
    (h : HashVal) : Option HashVal :=
  match mlookup index h with
  | some key => if mhas items key then some key else none
  | none => none

/-- `FindByMessageHash`: try the stable-client hash via index indirection,
the stable hash as item key, then the same for the legacy (email) hash. -/
def FindByMessageHash (items : List (HashVal × Bool)) (index : List (HashVal × HashVal))
    (stableClientID email model : String) (msgs : List Message) : Option HashVal :=
  let stored := ToStoredMessages msgs
  let stableHash := HashConversationForAccount stableClientID model stored
  let fallbackHash := HashConversationForAccount email model stored
  (probeIdx items index stableHash).orElse fun _ =>
  (if mhas items stableHash then some stableHash else none).orElse fun _ =>
  (probeIdx items index fallbackHash).orElse fun _ =>
  (if mhas items fallbackHash then some fallbackHash else none)

/-- `FindConversationKey`: empty input finds nothing; otherwise try the
exact list, then its sanitized form. -/
def FindConversationKey (items : List (HashVal × Bool)) (index : List (HashVal × HashVal))
    (stableClientID email model : String) (msgs : List Message) : Option HashVal :=
  if msgs = [] then none
  else
    (FindByMessageHash items index stableClientID email model msgs).orElse fun _ =>
      FindByMessageHash items index stableClientID email model (SanitizeAssistantMessages msgs)

/-- One iteration of the `FindReusableSessionKey` loop at `searchEnd = j`:
take the prefix `msgs[:j]`; when its last message's role folds to
`assistant` or `system`, probe `FindConversationKey` on it. -/
def lookupHitAt (items : List (HashVal × Bool)) (index : List (HashVal × HashVal))
    (stableClientID email model : String) (msgs : List Message) (j : Nat) :
    Option HashVal :=
  let sub := msgs.take j
  match sub.getLast? with
  | none => none
  | some tail =>
    if equalFold tail.role "assistant" || equalFold tail.role "system" then
      FindConversationKey items index stableClientID email model sub
    else none

/-- The descending search loop of `FindReusableSessionKey`, recursing on
`searchEnd`. -/
def FindReusableAux (items : List (HashVal × Bool)) (index : List (HashVal × HashVal))
    (stableClientID email model : String) (msgs : List Message) :
    Nat → Option (HashVal × Nat)
  | 0 => none
  | 1 => none
  | (n + 2) =>
    match lookupHitAt items index stableClientID email model msgs (n + 2) with
    | some key => some (key, n + 2)
    | none => FindReusableAux items index stableClientID email model msgs (n + 1)

/-- `FindReusableSessionKey`: longest prefix ending in an assistant or
system message that matches a stored session; `none` models the Go
`("", 0)` result. -/
def FindReusableSessionKey (items : List (HashVal × Bool)) (index : List (HashVal × HashVal))
    (stableClientID email model : String) (msgs : List Message) : Option (HashVal × Nat) :=
  if msgs.length < 2 then none
  else FindReusableAux items index stableClientID email model msgs msgs.length

/-- `FindReusableSessionIn`: key search over a record map, returning the
record, its metadata and the overlap length. -/
def FindReusableSessionIn (items : List (HashVal × ConversationRecord))
    (index : List (HashVal × HashVal)) (stableClientID email model : String)
    (msgs : List Message) : Option (ConversationRecord × List String × Nat) :=
  let keySet := items.map fun p => (p.1, true)
  match FindReusableSessionKey keySet index stableClientID email model msgs with
  | none => none
  | some (key, overlapLen) =>
    match mlookup items key with
    | none => none
    | some r => some (r, r.metadata, overlapLen)

/-! ## Account state and reuse planner (geminiwebapi state source file) -/

/-- metadata.go `AccountMetaKey`. -/
def AccountMetaKey (accountID modelName : String) : String :=
  "account-meta|" ++ accountID ++ "|" ++ modelName

/-- Modelled from the spec: `conversation.MatchResult` (source not under
src/), the pending-match staging payload: a model name and a record, as
read by `reuseFromPending` (`match.Model`, `match.Record.Metadata`). -/
structure MatchResult where
  matchModel : String
  record : ConversationRecord
deriving DecidableEq, Repr

/-- Modelled from the spec: `conversation.EqualMessages` (source not under
src/): structural equality of two role/text message lists. -/
def EqualMessages (a b : List Message) : Bool := a = b

/-- The mutable per-account state of `GeminiWebState` that the embedded
claims observe: the three in-memory keyspaces, the pending-match slot, the
derived identifiers and the configuration flags. -/
structure AccountState where
  stableClientID : String
  accountID : String
  convStore : List (String × List String)
  convData : List (HashVal × ConversationRecord)
  convIndex : List (HashVal × HashVal)
  pendingMatch : Option MatchResult
  reusableContext : Bool
  codeMode : Bool
deriving DecidableEq, Repr

/-- `consumePendingMatch`: read and clear the single-slot staging area. -/
def consumePendingMatch (s : AccountState) : Option MatchResult × AccountState :=
  (s.pendingMatch, { s with pendingMatch := none })

/-- `setPendingMatch`. -/
def setPendingMatch (s : AccountState) (m : Option MatchResult) : AccountState :=
  { s with pendingMatch := m }

/-- The bounded descending scan of `longestHistoryOverlap`. -/
def lhoAux (history incoming : List Message) : Nat → Nat
  | 0 => 0
  | (k + 1) =>
    if EqualMessages (history.drop (history.length - (k + 1))) (incoming.take (k + 1)) then
      k + 1
    else lhoAux history incoming k

/-- `longestHistoryOverlap`: the largest `k ≤ min (|history|, |incoming|)`
whose history suffix of length `k` equals the incoming list's first `k`
messages, or `0`. -/
def longestHistoryOverlap (history incoming : List Message) : Nat :=
  lhoAux history incoming (min history.length incoming.length)

/-- `findConversationByMetadata`: first stored record with a matching
model (fold-insensitive, trimmed) and identical metadata. -/
def findConversationByMetadata (s : AccountState) (model : String)
    (metadata : List String) : Option (List Message) :=
  if metadata = [] then none
  else
    (s.convData.find? fun p =>
        equalFold (trimStr p.2.model) (trimStr model) && decide (p.2.metadata = metadata)).map
      fun p => StoredToMessages p.2.messages

/-- The planner's reuse decision payload (`reuseComputation`). -/
structure ReuseComputation where
  metadata : List String
  history : List Message
  overlap : Nat
deriving DecidableEq, Repr

/-- `reuseFromPending`: consume the pending match; reject it on model
mismatch, empty metadata, or missing matching history. -/
def reuseFromPending (s : AccountState) (modelName : String) (msgs : List Message) :
    Option ReuseComputation × AccountState :=
  let (m, s') := consumePendingMatch s
  match m with
  | none => (none, s')
  | some mr =>
    if !equalFold (trimStr mr.matchModel) (trimStr modelName) then (none, s')
    else
      let metadata := mr.record.metadata
      if metadata = [] then (none, s')
      else
        match findConversationByMetadata s' modelName metadata with
        | none => (none, s')
        | some history =>
          (some ⟨metadata, history, longestHistoryOverlap history msgs⟩, s')

/-- `findReusableSession`: index-path lookup; the engine overlap is kept
unless the recomputation against the record's stored history is
positive. -/
def findReusableSession (s : AccountState) (modelName : String) (msgs : List Message) :
    Option ReuseComputation :=
  match FindReusableSessionIn s.convData s.convIndex s.stableClientID s.accountID
      modelName msgs with
  | none => none
  | some (r, metadata, overlap) =>
    let history := StoredToMessages r.messages
    if history = [] then none
    else
      let computed := longestHistoryOverlap history msgs
      let overlap' := if computed > 0 then computed else overlap
      some ⟨metadata, history, overlap'⟩

/-- The planner core of `prepare` (message selection; the file-attachment
subset logic, request translation and upstream client setup are outside
the embedded claims). -/
structure PlanResult where
  meta : List String
  useMsgs : List Message
  fullCleaned : List Message
  reuse : Bool
  tagged : Bool
deriving DecidableEq, Repr

/-- The branch structure of `prepare` choosing metadata, `useMsgs` and the
synthetic `fullCleaned` history (the tag flag is set afterwards by
`planMessages`).  `underlying` stands for
`conversation.MapAliasToUnderlying modelName` (alias table not under
src/); it is passed in explicitly. -/
def planCore (s : AccountState) (modelName underlying : String)
    (cleaned : List Message) : PlanResult × AccountState :=
  if s.reusableContext then
    let (pending, s1) := reuseFromPending s underlying cleaned
    let plan := match pending with
      | some p => some p
      | none => findReusableSession s1 underlying cleaned
    match plan with
    | some p =>
      let overlap := if p.overlap > cleaned.length then cleaned.length else p.overlap
      let delta := cleaned.drop overlap
      let fullCleaned :=
        if p.history ≠ [] then p.history ++ delta else cleaned.take overlap ++ delta
      let useMsgs :=
        if delta = [] ∧ cleaned ≠ [] then [(cleaned.getLast?).getD ⟨"", ""⟩] else delta
      ({ meta := p.metadata, useMsgs := useMsgs, fullCleaned := fullCleaned,
         reuse := true, tagged := false }, s1)
    | none =>
      let tailAssistant := decide (cleaned.length ≥ 2) &&
        (match cleaned.get? (cleaned.length - 2) with
         | some m => equalFold m.role "assistant"
         | none => false)
      let f1 := (mlookup s1.convStore (AccountMetaKey s1.accountID underlying)).getD []
      let fallbackMeta :=
        if f1 = [] then (mlookup s1.convStore (AccountMetaKey s1.accountID modelName)).getD []
        else f1
      if tailAssistant && !(fallbackMeta == []) then
        ({ meta := fallbackMeta, useMsgs := [(cleaned.getLast?).getD ⟨"", ""⟩],
           fullCleaned := cleaned, reuse := true, tagged := false }, s1)
      else
        ({ meta := [], useMsgs := cleaned, fullCleaned := cleaned,
           reuse := false, tagged := false }, s1)
  else
    let meta :=
      match mlookup s.convStore (AccountMetaKey s.accountID underlying) with
      | some v => if v ≠ [] then v else (mlookup s.convStore
          (AccountMetaKey s.accountID modelName)).getD []
      | none => (mlookup s.convStore (AccountMetaKey s.accountID modelName)).getD []
    ({ meta := meta, useMsgs := cleaned, fullCleaned := cleaned,
       reuse := false, tagged := false }, s)

/-- `prepare`, planning stage: sanitize the parsed messages, run the
branch logic, then decide the tag flag (`NeedRoleTags`, forced off on
single-message reuse). -/
def planMessages (s : AccountState) (modelName underlying : String)
    (messages : List Message) : PlanResult × AccountState :=
  let cleaned := SanitizeAssistantMessages messages
  let (core, s1) := planCore s modelName underlying cleaned
  let tagged :=
    if core.reuse && core.useMsgs.length == 1 then false else NeedRoleTags core.useMsgs
  ({ core with tagged := tagged }, s1)

/-! ## Prompt stage of `prepare` and the empty-prompt guard -/

/-- The prompt `prepare` assembles from the planned delta: the XML-wrap
hint is applied to a copy of `useMsgs` (enabled only in code mode), and
the solicit flag equals the tag flag. -/
def assembledPrompt (codeMode : Bool) (p : PlanResult) : String :=
  BuildPrompt (AppendXMLWrapHintIfNeeded p.useMsgs (!codeMode)) p.tagged p.tagged

/-- An error result (interfaces.ErrorMessage): HTTP status and message. -/
structure ErrorMessage where
  statusCode : Nat
  message : String
deriving DecidableEq, Repr

/-- `prepare` through the empty-prompt guard: plan, assemble, and fail
with a 400 client error when the trimmed prompt is empty.  (The later
steps — file upload, client setup — never mutate the conversation
caches.) -/
def preparePlan (s : AccountState) (modelName underlying : String)
    (messages : List Message) : Except ErrorMessage (PlanResult × String) × AccountState :=
  let (p, s1) := planMessages s modelName underlying messages
  let prompt := assembledPrompt s1.codeMode p
  if trimStr prompt = "" then
    (Except.error ⟨400, "bad request: empty prompt after filtering system/thought content"⟩, s1)
  else
    (Except.ok (p, prompt), s1)

/-! ## Upstream output and the image-only "Done" hook (`Send`) -/

/-- One upstream reply candidate; the image lists are abstracted to their
lengths (only emptiness is observed). -/
structure Candidate where
  text : String
  generatedImages : Nat
  webImages : Nat
deriving DecidableEq, Repr

/-- The upstream `ModelOutput`: candidates plus the chosen index. -/
structure ModelOutput where
  candidates : List Candidate
  chosen : Nat
deriving DecidableEq, Repr

/-- The image-only hook in `Send`: for `gemini-2.5-flash-image-preview`,
when the chosen candidate's trimmed text is empty and it carries at least
one generated or web image, its text is replaced by the literal
`"Done"`. -/
def applyImageTextHook (modelName : String) (output : ModelOutput) : ModelOutput :=
  if equalFold modelName "gemini-2.5-flash-image-preview" then
    if output.candidates.length > 0 then
      let c := (output.candidates.get? output.chosen).getD ⟨"", 0, 0⟩
      let hasNoText := trimStr c.text = ""
      let hasImages := c.generatedImages > 0 || c.webImages > 0
      if hasNoText ∧ hasImages then
        { output with candidates :=
            output.candidates.set output.chosen { c with text := "Done" } }
      else output
    else output
  else output

/-- Modelled from the spec: the translation layer converts the upstream
response from the chosen candidate, so the response text the caller sees
is the chosen candidate's text. -/
def convertedText (output : ModelOutput) : String :=
  ((output.candidates.get? output.chosen).getD ⟨"", 0, 0⟩).text

/-- Modelled from the spec: `conversation.RemoveThinkTags` (source not
under src/) strips `<think>…</think>` spans; the claims below only
evaluate it on text containing no such span.  `fuel`-bounded scan. -/
def removeThinkAux : Nat → List Char → List Char
  | 0, l => l
  | _ + 1, [] => []
  | fuel + 1, c :: rest =>
    if "<think>".data.isPrefixOf (c :: rest) then
      removeThinkAux fuel (dropCloseThink ((c :: rest).drop 7))
    else c :: removeThinkAux fuel rest
where
  /-- Drop through the first `</think>` terminator, if any. -/
  dropCloseThink : List Char → List Char
    | [] => []
    | c :: rest =>
      if "</think>".data.isPrefixOf (c :: rest) then (c :: rest).drop 8
      else dropCloseThink rest

/-- `RemoveThinkTags` over strings. -/
def RemoveThinkTags (s : String) : String :=
  String.mk (removeThinkAux s.data.length s.data)

/-- `buildConversationRecord`: append the first candidate's (de-thinked)
text as the final assistant turn; fails when there are no candidates.
`now` abstracts `time.Now()`. -/
def buildConversationRecord (model clientID : String) (history : List Message)
    (output : ModelOutput) (metadata : List String) (now : Nat) :
    Option ConversationRecord :=
  if output.candidates = [] then none
  else
    let t := ((output.candidates.get? 0).getD ⟨"", 0, 0⟩).text
    let text := if t ≠ "" then RemoveThinkTags t else ""
    let final := history ++ [⟨"assistant", text⟩]
    some { model := model, clientID := clientID, metadata := metadata,
           messages := ToStoredMessages final, createdAt := now, updatedAt := now }

/-! ## Conversation persistence (`persistConversation`) -/

/-- Tail-role qualification used by the suffix-index loop:
`strings.ToLower(strings.TrimSpace(role))` must be `assistant` or
`system`. -/
def tailRoleOk (segment : List Message) : Bool :=
  match segment.getLast? with
  | none => false
  | some m =>
    let r := lowerStr (trimStr m.role)
    r = "assistant" || r = "system"

/-- One iteration of the suffix-index loop of `persistConversation`: when
the segment qualifies (length ≥ 2, assistant/system tail), index it under
both the record's client-ID salt and the account-ID salt, deduplicating
within the call via the `suffixSeen` set. -/
def persistSegStep (clientID accountID underlying : String) (primary : HashVal)
    (segment : List Message) (seen : List HashVal) (index : List (HashVal × HashVal)) :
    List HashVal × List (HashVal × HashVal) :=
  if segment.length ≥ 2 ∧ tailRoleOk segment then
    let storedSegment := ToStoredMessages segment
    let segStable := HashConversationForAccount clientID underlying storedSegment
    let (seenA, indexA) :=
      if segStable ∈ seen then (seen, index)
      else (segStable :: seen, minsert index segStable primary)
    let segAccount := HashConversationForAccount accountID underlying storedSegment
    if segAccount ≠ segStable then
      if segAccount ∈ seenA then (seenA, indexA)
      else (segAccount :: seenA, minsert indexA segAccount primary)
    else (seenA, indexA)
  else (seen, index)

/-- The suffix-index loop of `persistConversation`: walk the sanitized
history's proper suffixes (`start = 1, 2, …`), applying `persistSegStep`
to each. -/
def persistSuffixes (clientID accountID underlying : String) (primary : HashVal) :
    List Message → List HashVal → List (HashVal × HashVal) →
      List HashVal × List (HashVal × HashVal)
  | [], seen, index => (seen, index)
  | m :: rest, seen, index =>
    let (seen1, index1) :=
      persistSegStep clientID accountID underlying primary (m :: rest) seen index
    persistSuffixes clientID accountID underlying primary rest seen1 index1

/-- The conversation-cache mutation of `persistConversation` (lines
550–601): store the record under its stable hash, index the full message
list under both salts, then index the sanitized history's qualifying
proper suffixes. -/
def persistConvMaps (accountID underlying : String) (r : ConversationRecord)
    (data : List (HashVal × ConversationRecord)) (index : List (HashVal × HashVal)) :
    List (HashVal × ConversationRecord) × List (HashVal × HashVal) :=
  let stableHash := HashConversationForAccount r.clientID underlying r.messages
  let accountHash := HashConversationForAccount accountID underlying r.messages
  let seen0 := if accountHash ≠ stableHash then [stableHash, accountHash] else [stableHash]
  let data1 := minsert data stableHash r
  let index1 := minsert index stableHash stableHash
  let index2 :=
    if accountHash ≠ stableHash then minsert index1 accountHash stableHash else index1
  let sanitizedHistory := SanitizeAssistantMessages (StoredToMessages r.messages)
  let (_, index3) :=
    persistSuffixes r.clientID accountID underlying stableHash
      (sanitizedHistory.drop 1) seen0 index2
  (data1, index3)

/-- `persistConversation`: refresh the account-meta store under both the
underlying and alias keys when metadata is present; when reusable context
is enabled and a record can be built, merge it into the conversation data
and index.  (The best-effort disk writes and the global
`StoreConversation` index are outside the embedded state.) -/
def persistConversation (s : AccountState) (modelName underlying : String)
    (fullCleaned : List Message) (output : ModelOutput) (metadata : List String)
    (now : Nat) : AccountState :=
  let store1 := minsert s.convStore (AccountMetaKey s.accountID underlying) metadata
  let store2 := minsert store1 (AccountMetaKey s.accountID modelName) metadata
  let s1 := if metadata ≠ [] then { s with convStore := store2 } else s
  if !s1.reusableContext then s1
  else
    match buildConversationRecord underlying s1.stableClientID fullCleaned output
        metadata now with
    | none => s1
    | some r =>
      let (data, index) := persistConvMaps s1.accountID underlying r s1.convData s1.convIndex
      { s1 with convData := data, convIndex := index }

/-! ## `Send` -/

/-- The outcome of one `Send` call: the (post-hook) upstream output or an
error, whether the upstream was invoked, and the resulting state. -/
structure SendOutcome where
  result : Except ErrorMessage ModelOutput
  upstreamCalled : Bool
  state : AccountState
deriving Repr

/-- `Send`: prepare (planning, prompt assembly, empty-prompt guard); on
success run the upstream call (its output and the resulting chat metadata
are oracle inputs), apply the image-only text hook, then persist.  On a
prepare error nothing is sent and nothing further is persisted. -/
def SendModel (s : AccountState) (modelName underlying : String)
    (messages : List Message) (output : ModelOutput) (chatMetadata : List String)
    (now : Nat) : SendOutcome :=
  match preparePlan s modelName underlying messages with
  | (Except.error e, s1) => ⟨Except.error e, false, s1⟩
  | (Except.ok (p, _prompt), s1) =>
    let output1 := applyImageTextHook modelName output
    let s2 := persistConversation s1 modelName underlying p.fullCleaned output1
      chatMetadata now
    ⟨Except.ok output1, true, s2⟩

/-! ## Durable store (conv store source file)

The BoltDB file is modelled as three named keyspaces whose values are
typed: JSON marshalling is modelled as a typed injection and
unmarshalling as the partial inverse (a value of the wrong shape is the
"malformed, silently skipped" case).  Byte-level raw strings (the
`conv_index` values) are the `rawV` constructor. -/

/-- A stored byte value: a raw string, a JSON string array, or a JSON
conversation record. -/
inductive BoltVal where
  | rawV : String → BoltVal
  | arrV : List String → BoltVal
  | recV : ConversationRecord → BoltVal
deriving DecidableEq, Repr

/-- The single BoltDB file with its three buckets (absent and empty
buckets are not distinguished; readers treat both as empty). -/
structure BoltFile where
  accountMeta : List (String × BoltVal)
  convItems : List (String × BoltVal)
  convIndex : List (String × BoltVal)
deriving DecidableEq, Repr

/-- `bolt.Bucket.Put` into a bucket (keys are unique in a bucket). -/
def boltPut (bucket : List (String × BoltVal)) (k : String) (v : BoltVal) :
    List (String × BoltVal) :=
  minsert bucket k v

/-- Rebuild a bucket from a snapshot, as the save transactions do after
deleting the bucket: put every pair of the snapshot in order. -/
def bucketOf {β : Type} (enc : β → BoltVal) (snapshot : List (String × β)) :
    List (String × BoltVal) :=
  snapshot.foldl (fun b p => boltPut b p.1 (enc p.2)) []

/-- `SaveConvStore`: replace the `account_meta` bucket with the snapshot
(a `nil` map means the empty map in Go); other buckets are untouched. -/
def SaveConvStore (f : BoltFile) (data : List (String × List String)) : BoltFile :=
  { f with accountMeta := bucketOf BoltVal.arrV data }

/-- `LoadConvStore`: read every `account_meta` entry whose value decodes
as a string array; malformed values are skipped. -/
def LoadConvStore (f : BoltFile) : List (String × List String) :=
  f.accountMeta.foldl
    (fun out p =>
      match p.2 with
      | BoltVal.arrV a => minsert out p.1 a
      | _ => out)
    []

/-- `SaveConvData`: replace the `conv_items` and `conv_index` buckets from
the snapshots in a single transaction; `account_meta` is untouched. -/
def SaveConvData (f : BoltFile) (items : List (String × ConversationRecord))
    (index : List (String × String)) : BoltFile :=
  { f with convItems := bucketOf BoltVal.recV items,
           convIndex := bucketOf BoltVal.rawV index }

/-- `LoadConvData`: read every `conv_items` entry that decodes as a
record (malformed values skipped) and every `conv_index` entry as a raw
string. -/
def LoadConvData (f : BoltFile) : List (String × ConversationRecord) × List (String × String) :=
  let items := f.convItems.foldl
    (fun out p =>
      match p.2 with
      | BoltVal.recV r => minsert out p.1 r
      | _ => out)
    []
  let index := f.convIndex.foldl
    (fun out p =>
      match p.2 with
      | BoltVal.rawV v => minsert out p.1 v
      | BoltVal.arrV _ => out
      | BoltVal.recV _ => out)
    []
  (items, index)

/-! ## Spec-side definitions used to state refinement and counterexample
claims (these follow the specification's words, for comparison with the
source-derived definitions above) -/

/-- The specification's reading of role normalization: "Lowercase, trim,
map `model → assistant`." -/
def specNormalizeRole (role : String) : String :=
  let t := trimStr (lowerStr role)
  if t = "model" then "assistant" else t

/-- The specification's single-hash probe: "if `index["hash:"+H]` points
at a key present in items, return that key; else if `H` itself is present
in items, return `H`." -/
def specChainProbe (items : List (HashVal × Bool)) (index : List (HashVal × HashVal))
    (h : HashVal) : Option HashVal :=
  match mlookup index h with
  | some key =>
    if mhas items key then some key
    else if mhas items h then some h else none
  | none => if mhas items h then some h else none

/-- The specification's lookup chain: probe `H_stable` then `H_legacy`;
if no match, repeat with the sanitized message list; else empty. -/
def specFindConversationKey (items : List (HashVal × Bool))
    (index : List (HashVal × HashVal)) (stableClientID email model : String)
    (msgs : List Message) : Option HashVal :=
  let tryList := fun (ms : List Message) =>
    let stored := ToStoredMessages ms
    [HashConversationForAccount stableClientID model stored,
     HashConversationForAccount email model stored].findSome? (specChainProbe items index)
  (tryList msgs).orElse fun _ => tryList (SanitizeAssistantMessages msgs)

/-- "Contains these blocks, in order": the text decomposes around the
given blocks left to right. -/
def containsInOrder : List (List Char) → List Char → Prop
  | [], _ => True
  | b :: bs, s => ∃ pre rest, s = pre ++ b ++ rest ∧ containsInOrder bs rest

/-- The tagged wrapping of one message, as emitted by `AddRoleTag`
without the unclosed flag. -/
def blockData (m : Message) : List Char :=
  (AddRoleTag m.role m.text false).data

/-- The flattened tagged body: each block followed by a newline. -/
def blocksFlat (msgs : List Message) : List Char :=
  (msgs.map fun m => blockData m ++ ['\n']).flatten

/-- The planner's delta rule applied at a given overlap: clamp the
overlap to the cleaned length, drop the overlap, and re-ask the last
message when the delta is empty but the cleaned list is not. -/
def deltaOf (ov : Nat) (c : List Message) : List Message :=
  let o := if ov > c.length then c.length else ov
  let d := c.drop o
  if d = [] ∧ c ≠ [] then [(c.getLast?).getD ⟨"", ""⟩] else d

/-! ## Shared lemmas: characters and strings -/

theorem toNat_ofNat_valid {n : Nat} (h : n.isValidChar) : (Char.ofNat n).toNat = n := by
  simp [Char.ofNat, h, Char.ofNatAux, Char.toNat, UInt32.toNat]

theorem toLower_cases (c : Char) :
    (¬(65 ≤ c.toNat ∧ c.toNat ≤ 90) ∧ c.toLower = c) ∨
      ((65 ≤ c.toNat ∧ c.toNat ≤ 90) ∧ c.toLower.toNat = c.toNat + 32) := by
  by_cases h : 65 ≤ c.toNat ∧ c.toNat ≤ 90
  · right
    refine ⟨h, ?_⟩
    simp only [Char.toLower, ge_iff_le]
    rw [if_pos ⟨h.1, h.2⟩]
    exact toNat_ofNat_valid (Or.inl (by omega))
  · left
    refine ⟨h, ?_⟩
    simp only [Char.toLower, ge_iff_le]
    rw [if_neg h]

theorem toLower_toLower (c : Char) : c.toLower.toLower = c.toLower := by
  rcases toLower_cases c with ⟨_, he⟩ | ⟨h, ht⟩
  · rw [he, he]
  · rcases toLower_cases c.toLower with ⟨_, he2⟩ | ⟨h2, _⟩
    · exact he2
    · omega

theorem isSpaceChar_toLower (c : Char) : isSpaceChar c.toLower = isSpaceChar c := by
  rcases toLower_cases c with ⟨_, he⟩ | ⟨h, ht⟩
  · rw [he]
  · have h1 : isSpaceChar c.toLower = false := by
      simp only [isSpaceChar, Bool.or_eq_false_iff, decide_eq_false_iff_not]
      omega
    have h2 : isSpaceChar c = false := by
      simp only [isSpaceChar, Bool.or_eq_false_iff, decide_eq_false_iff_not]
      omega
    rw [h1, h2]

theorem lowerStr_idem (s : String) : lowerStr (lowerStr s) = lowerStr s := by
  simp only [lowerStr, List.map_map]
  congr 1
  exact List.map_congr_left fun c _ => toLower_toLower c

theorem lowerStr_data (s : String) : (lowerStr s).data = s.data.map Char.toLower := rfl

theorem trimCharList_map_toLower (l : List Char) :
    trimCharList (l.map Char.toLower) = (trimCharList l).map Char.toLower := by
  have hfun : (isSpaceChar ∘ Char.toLower) = isSpaceChar := funext isSpaceChar_toLower
  simp only [trimCharList, List.dropWhile_map, hfun, ← List.map_reverse]

/-- Lowering and trimming commute. -/
theorem trimStr_lowerStr (s : String) : trimStr (lowerStr s) = lowerStr (trimStr s) := by
  simp only [trimStr, lowerStr, trimCharList_map_toLower]

/-! ## Shared lemmas: association-list maps -/

theorem mlookup_minsert_self {α β : Type} [DecidableEq α] (l : List (α × β)) (k : α) (v : β) :
    mlookup (minsert l k v) k = some v := by
  induction l with
  | nil => simp [minsert, mlookup]
  | cons p rest ih =>
    by_cases h : k = p.1
    · simp [minsert, mlookup, h]
    · simp [minsert, mlookup, h, ih]

theorem mlookup_minsert_ne {α β : Type} [DecidableEq α] (l : List (α × β)) (k k' : α) (v : β)
    (h : k' ≠ k) : mlookup (minsert l k v) k' = mlookup l k' := by
  induction l with
  | nil => simp [minsert, mlookup, h]
  | cons p rest ih =>
    by_cases hk : k = p.1
    · subst hk
      simp [minsert, mlookup, h]
    · by_cases hk' : k' = p.1
      · simp [minsert, mlookup, hk, hk']
      · simp [minsert, mlookup, hk, hk', ih]

theorem mhas_keySet {β : Type} (l : List (HashVal × β)) (k : HashVal) :
    mhas (l.map fun p => (p.1, true)) k = (mlookup l k).isSome := by
  induction l with
  | nil => simp [mhas, mlookup]
  | cons p rest ih =>
    by_cases h : k = p.1
    · simp [mhas, mlookup, h]
    · simpa [mhas, mlookup, h] using ih

theorem minsert_fresh {α β : Type} [DecidableEq α] (l : List (α × β)) (k : α) (v : β)
    (h : k ∉ l.map Prod.fst) : minsert l k v = l ++ [(k, v)] := by
  induction l with
  | nil => simp [minsert]
  | cons p rest ih =>
    simp only [List.map_cons, List.mem_cons] at h
    push_neg at h
    simp [minsert, h.1, ih h.2]

/-! ## C7: role normalization -/

/-- C7 (counterexample): `NormalizeRole` does not trim surrounding
whitespace, so it differs from the claimed lowercase-trim-map behavior on
`" Model "`. -/
theorem normalizeRole_no_trim_counterexample :
    NormalizeRole " Model " ≠ specNormalizeRole " Model " := by decide

/-- C7 (amended): `NormalizeRole` lowercases (without trimming) and maps
the lowercased alias `model` to `assistant`; in particular
`NormalizeRole "Model" = "assistant"`, and `NormalizeRole` is
idempotent. -/
theorem normalizeRole_amended :
    NormalizeRole "Model" = "assistant" ∧
      ∀ r, NormalizeRole (NormalizeRole r) = NormalizeRole r := by
  constructor
  · decide
  · intro r
    simp only [NormalizeRole]
    by_cases h : lowerStr r = "model"
    · rw [if_pos h]
      decide
    · rw [if_neg h, lowerStr_idem, if_neg h]

/-! ## C8: pending-match single use -/

/-- C8: consulting the pending match once leaves the slot empty whether or
not the match was usable: `reuseFromPending` always clears the slot, and a
second consume returns nothing. -/
theorem pendingMatch_single_use (s : AccountState) (modelName : String)
    (msgs : List Message) :
    (reuseFromPending s modelName msgs).2.pendingMatch = none ∧
      (consumePendingMatch (consumePendingMatch s).2).1 = none := by
  constructor
  · cases h : s.pendingMatch with
    | none => simp [reuseFromPending, consumePendingMatch, h]
    | some mr =>
      simp only [reuseFromPending, consumePendingMatch, h]
      split
      · rfl
      · split
        · rfl
        · split
          · rfl
          · rfl
  · rfl

/-! ## C4: save/load round trip -/

theorem foldl_minsert_fresh {α β γ : Type} [DecidableEq α] (g : β → γ) :
    ∀ (l : List (α × β)) (acc : List (α × γ)), (l.map Prod.fst).Nodup →
      (∀ k, k ∈ l.map Prod.fst → k ∉ acc.map Prod.fst) →
      l.foldl (fun out p => minsert out p.1 (g p.2)) acc
        = acc ++ l.map fun p => (p.1, g p.2) := by
  intro l
  induction l with
  | nil => intro acc _ _; simp
  | cons p rest ih =>
    intro acc hnd hfresh
    simp only [List.map_cons, List.nodup_cons] at hnd
    have h1 : p.1 ∉ acc.map Prod.fst := hfresh p.1 (by simp)
    have step : minsert acc p.1 (g p.2) = acc ++ [(p.1, g p.2)] := minsert_fresh _ _ _ h1
    simp only [List.foldl_cons, step]
    rw [ih (acc ++ [(p.1, g p.2)]) hnd.2]
    · simp
    · intro k hk
      simp only [List.map_append, List.mem_append, List.map_cons]
      push_neg
      constructor
      · exact hfresh k (by simp [hk])
      · simp only [List.map_nil, List.mem_singleton]
        intro he
        exact hnd.1 (he ▸ hk)

theorem bucketOf_eq_map {β : Type} (enc : β → BoltVal) (l : List (String × β))
    (hnd : (l.map Prod.fst).Nodup) :
    bucketOf enc l = l.map fun p => (p.1, enc p.2) := by
  simpa using foldl_minsert_fresh enc l [] hnd (by simp)

theorem load_bucket_roundtrip {β : Type}
    (enc : β → BoltVal) (step : List (String × β) → String × BoltVal → List (String × β))
    (hstep : ∀ out k v, step out (k, enc v) = minsert out k v) :
    ∀ (l : List (String × β)) (acc : List (String × β)), (l.map Prod.fst).Nodup →
      (∀ k, k ∈ l.map Prod.fst → k ∉ acc.map Prod.fst) →
      (l.map fun p => (p.1, enc p.2)).foldl step acc = acc ++ l := by
  intro l
  induction l with
  | nil => intro acc _ _; simp
  | cons p rest ih =>
    intro acc hnd hfresh
    simp only [List.map_cons, List.nodup_cons] at hnd
    simp only [List.map_cons, List.foldl_cons, hstep]
    rw [minsert_fresh _ _ _ (hfresh p.1 (by simp)), ih _ hnd.2]
    · simp
    · intro k hk
      simp only [List.map_append, List.mem_append]
      push_neg
      refine ⟨hfresh k (by simp [hk]), ?_⟩
      simp only [List.map_cons, List.map_nil, List.mem_singleton]
      intro he
      exact hnd.1 (he ▸ hk)

/-- C4: saving a well-formed snapshot (no duplicate keys, as for a Go
map) and loading it back returns exactly the snapshot, independent of the
file's prior contents; both the conversation items/index save and the
account-meta save replace their keyspaces wholesale. -/
theorem save_load_roundtrip (f : BoltFile) (items : List (String × ConversationRecord))
    (index : List (String × String)) (store : List (String × List String))
    (hitems : (items.map Prod.fst).Nodup) (hindex : (index.map Prod.fst).Nodup)
    (hstore : (store.map Prod.fst).Nodup) :
    LoadConvData (SaveConvData f items index) = (items, index) ∧
      LoadConvStore (SaveConvStore f store) = store := by
  refine ⟨?_, ?_⟩
  · simp only [LoadConvData, SaveConvData, Prod.mk.injEq]
    refine ⟨?_, ?_⟩
    · rw [bucketOf_eq_map]
      · simpa using load_bucket_roundtrip BoltVal.recV _
          (fun _ _ _ => rfl) items [] hitems (by simp)
      · exact hitems
    · rw [bucketOf_eq_map]
      · simpa using load_bucket_roundtrip BoltVal.rawV _
          (fun _ _ _ => rfl) index [] hindex (by simp)
      · exact hindex
  · simp only [LoadConvStore, SaveConvStore]
    rw [bucketOf_eq_map]
    · simpa using load_bucket_roundtrip BoltVal.arrV _
        (fun _ _ _ => rfl) store [] hstore (by simp)
    · exact hstore

/-- C4 (witness): a concrete round trip through a file with stale prior
contents. -/
theorem save_load_roundtrip_witness :
    LoadConvData (SaveConvData ⟨[("junk", BoltVal.rawV "x")],
        [("old", BoltVal.rawV "y")], [("old2", BoltVal.arrV ["z"])]⟩
        [("k1", ⟨"m", "c", ["t"], [⟨"user", "hi"⟩], 0, 0⟩)] [("h1", "k1")])
      = ([("k1", ⟨"m", "c", ["t"], [⟨"user", "hi"⟩], 0, 0⟩)], [("h1", "k1")]) ∧
      LoadConvStore (SaveConvStore ⟨[("junk", BoltVal.rawV "x")], [], []⟩
        [("a", ["m1"])]) = [("a", ["m1"])] := by
  have h := save_load_roundtrip ⟨[("junk", BoltVal.rawV "x")],
    [("old", BoltVal.rawV "y")], [("old2", BoltVal.arrV ["z"])]⟩
    [("k1", ⟨"m", "c", ["t"], [⟨"user", "hi"⟩], 0, 0⟩)] [("h1", "k1")] [("a", ["m1"])]
    (by decide) (by decide) (by decide)
  have h2 := save_load_roundtrip ⟨[("junk", BoltVal.rawV "x")], [], []⟩
    [] [] [("a", ["m1"])] (by decide) (by decide) (by decide)
  exact ⟨h.1, h2.2⟩

/-! ## C5: the lookup fallback chain -/

theorem probe_then_item (items : List (HashVal × Bool)) (index : List (HashVal × HashVal))
    (h : HashVal) :
    ((probeIdx items index h).orElse fun _ => if mhas items h then some h else none)
      = specChainProbe items index h := by
  cases hm : mlookup index h with
  | none => simp [probeIdx, specChainProbe, hm, Option.orElse]
  | some key =>
    by_cases hk : mhas items key
    · simp [probeIdx, specChainProbe, hm, hk, Option.orElse]
    · simp [probeIdx, specChainProbe, hm, hk, Option.orElse]

theorem fbmh_eq_chain (items : List (HashVal × Bool)) (index : List (HashVal × HashVal))
    (stableClientID email model : String) (ms : List Message) :
    FindByMessageHash items index stableClientID email model ms
      = (specChainProbe items index
            (HashConversationForAccount stableClientID model (ToStoredMessages ms))).orElse
          fun _ => specChainProbe items index
            (HashConversationForAccount email model (ToStoredMessages ms)) := by
  simp only [FindByMessageHash]
  rw [← probe_then_item items index
      (HashConversationForAccount stableClientID model (ToStoredMessages ms)),
    ← probe_then_item items index
      (HashConversationForAccount email model (ToStoredMessages ms))]
  cases probeIdx items index
      (HashConversationForAccount stableClientID model (ToStoredMessages ms)) with
  | some key => rfl
  | none =>
    cases mhas items (HashConversationForAccount stableClientID model (ToStoredMessages ms)) <;>
      rfl

/-- C5 (counterexample): on the empty message list, `FindConversationKey`
returns nothing without probing, while the claimed chain would probe the
hash of the empty list and can find a key. -/
theorem findConversationKey_empty_counterexample :
    FindConversationKey [(HashConversationForAccount "cid" "m" (ToStoredMessages []), true)]
        [] "cid" "e" "m" [] = none ∧
      specFindConversationKey
          [(HashConversationForAccount "cid" "m" (ToStoredMessages []), true)]
          [] "cid" "e" "m" []
        = some (HashConversationForAccount "cid" "m" (ToStoredMessages [])) := by
  constructor
  · rfl
  · rfl

/-- C5 (amended): on the empty list `FindConversationKey` returns empty
immediately; on every non-empty list it follows exactly the claimed
chain — stable hash via index indirection, stable hash as item key,
legacy hash via index, legacy hash as item key (an index entry counting
only when its target key is present in items) — and repeats the whole
chain on the sanitized list before returning empty. -/
theorem findConversationKey_follows_chain :
    (∀ items index cid email model,
        FindConversationKey items index cid email model [] = none) ∧
      ∀ items index cid email model msgs, msgs ≠ [] →
        FindConversationKey items index cid email model msgs
          = specFindConversationKey items index cid email model msgs := by
  constructor
  · intro items index cid email model
    rfl
  · intro items index cid email model msgs hne
    simp only [FindConversationKey, specFindConversationKey, if_neg hne,
      fbmh_eq_chain, List.findSome?]
    cases specChainProbe items index
        (HashConversationForAccount cid model (ToStoredMessages msgs)) with
    | some k => rfl
    | none =>
      cases specChainProbe items index
          (HashConversationForAccount email model (ToStoredMessages msgs)) with
      | some k => rfl
      | none =>
        cases specChainProbe items index
            (HashConversationForAccount cid model
              (ToStoredMessages (SanitizeAssistantMessages msgs))) with
        | some k => rfl
        | none =>
          cases specChainProbe items index
              (HashConversationForAccount email model
                (ToStoredMessages (SanitizeAssistantMessages msgs))) with
          | some k => rfl
          | none => rfl

/-- C5 (witness): the chain equality at a concrete non-empty input whose
index entry is orphaned, falling through to the direct item hit. -/
theorem findConversationKey_follows_chain_witness :
    FindConversationKey
        [(HashConversationForAccount "cid" "m" (ToStoredMessages [⟨"user", "hi"⟩]), true)]
        [(HashConversationForAccount "cid" "m" (ToStoredMessages [⟨"user", "hi"⟩]),
          HashConversationForAccount "x" "m" [])]
        "cid" "e" "m" [⟨"user", "hi"⟩]
      = specFindConversationKey
        [(HashConversationForAccount "cid" "m" (ToStoredMessages [⟨"user", "hi"⟩]), true)]
        [(HashConversationForAccount "cid" "m" (ToStoredMessages [⟨"user", "hi"⟩]),
          HashConversationForAccount "x" "m" [])]
        "cid" "e" "m" [⟨"user", "hi"⟩] :=
  findConversationKey_follows_chain.2 _ _ _ _ _ _ (by decide)

/-! ## C3: tagged prompt shape -/

theorem string_join_data : ∀ (l : List String) (s : String),
    (l.foldl (· ++ ·) s).data = s.data ++ (l.map String.data).flatten := by
  intro l
  induction l with
  | nil => intro s; simp
  | cons p rest ih =>
    intro s
    simp only [List.foldl_cons, ih, String.data_append, List.map_cons, List.flatten_cons,
      List.append_assoc]

theorem blockData_cons (m : Message) :
    blockData m = '<' :: ("|im_start|>".data
      ++ ((if m.role = "" then "user" else m.role).data
        ++ ("\n".data ++ (m.text.data ++ "\n<|im_end|>".data)))) := by
  simp only [blockData, AddRoleTag, if_neg (by decide : ¬(false = true)), String.data_append,
    List.append_assoc]
  rfl

theorem dropWhile_blocksFlat (msgs : List Message) (hne : msgs ≠ []) (x : List Char) :
    (blocksFlat msgs ++ x).dropWhile isSpaceChar = blocksFlat msgs ++ x := by
  cases msgs with
  | nil => exact absurd rfl hne
  | cons m rest =>
    simp only [blocksFlat, List.map_cons, List.flatten_cons, List.append_assoc,
      blockData_cons, List.cons_append, List.dropWhile_cons]
    rw [if_neg (by decide)]

theorem trim_tagged_prompt (msgs : List Message) (hne : msgs ≠ []) :
    trimCharList (blocksFlat msgs ++ "<|im_start|>assistant\n".data)
      = blocksFlat msgs ++ "<|im_start|>assistant".data := by
  have hsplit : "<|im_start|>assistant\n".data
      = "<|im_start|>assistant".data ++ ['\n'] := by decide
  have hrev : ("<|im_start|>assistant".data).reverse
      = 't' :: ("natsissa>|trats_mi|<".data) := by decide
  rw [trimCharList, hsplit,
    dropWhile_blocksFlat msgs hne ("<|im_start|>assistant".data ++ ['\n'])]
  rw [← List.append_assoc, List.reverse_append, List.reverse_append]
  rw [(by rfl : (['\n'] : List Char).reverse = ['\n']), List.singleton_append]
  rw [List.dropWhile_cons, if_pos (by decide)]
  rw [hrev, List.cons_append, List.dropWhile_cons, if_neg (by decide)]
  rw [← List.cons_append, ← hrev, ← List.reverse_append, List.reverse_reverse]

theorem containsInOrder_prepend (bs : List (List Char)) (s pre : List Char)
    (h : containsInOrder bs s) : containsInOrder bs (pre ++ s) := by
  cases bs with
  | nil => trivial
  | cons b rest =>
    obtain ⟨p, r, hs, hrec⟩ := h
    exact ⟨pre ++ p, r, by rw [hs]; simp [List.append_assoc], hrec⟩

theorem containsInOrder_blocksFlat :
    ∀ (msgs : List Message) (suffix : List Char),
      containsInOrder (msgs.map blockData) (blocksFlat msgs ++ suffix) := by
  intro msgs
  induction msgs with
  | nil => intro suffix; trivial
  | cons m rest ih =>
    intro suffix
    refine ⟨[], '\n' :: (blocksFlat rest ++ suffix), ?_, ?_⟩
    · simp [blocksFlat, List.append_assoc]
    · exact containsInOrder_prepend _ _ ['\n'] (ih suffix)

theorem buildPrompt_tagged_data (msgs : List Message) (hne : msgs ≠ []) :
    (BuildPrompt msgs true true).data
      = blocksFlat msgs ++ "<|im_start|>assistant".data := by
  simp only [BuildPrompt, if_neg hne]
  rw [if_neg (by decide)]
  have hjoin : (String.join (msgs.map fun m => AddRoleTag m.role m.text false ++ "\n")
      ++ AddRoleTag "assistant" "" true).data
      = blocksFlat msgs ++ "<|im_start|>assistant\n".data := by
    rw [String.data_append, String.join, string_join_data]
    simp only [List.map_map, List.nil_append]
    congr 1
  simp only [ite_true, trimStr, hjoin]
  exact trim_tagged_prompt msgs hne

/-- C3 (counterexample): for a non-empty input the whole-prompt trim also
strips the newline of the unclosed assistant tag, so the prompt does not
end with `<|im_start|>assistant\n`. -/
theorem buildPrompt_trailing_newline_counterexample :
    BuildPrompt [⟨"user", "hi"⟩] true true
        = "<|im_start|>user\nhi\n<|im_end|>\n<|im_start|>assistant" ∧
      ¬ "<|im_start|>assistant\n".data <:+ (BuildPrompt [⟨"user", "hi"⟩] true true).data := by
  constructor
  · rfl
  · decide

/-- C3 (amended): for non-empty input the tagged prompt contains each
message's `<|im_start|>role\ncontent\n<|im_end|>` block in order (an
empty role is rendered as `user`) and, after the whole-prompt trim, ends
with the unclosed tag `<|im_start|>assistant` (its trailing newline is
trimmed); the empty list yields `<|im_start|>assistant\n` when tagged and
soliciting, and the empty string otherwise. -/
theorem buildPrompt_tagged_shape :
    (∀ msgs : List Message, msgs ≠ [] →
        containsInOrder (msgs.map blockData) (BuildPrompt msgs true true).data ∧
          "<|im_start|>assistant".data <:+ (BuildPrompt msgs true true).data) ∧
      BuildPrompt [] true true = "<|im_start|>assistant\n" ∧
      (∀ tagged appendAssistant : Bool, ¬(tagged = true ∧ appendAssistant = true) →
        BuildPrompt [] tagged appendAssistant = "") := by
  refine ⟨?_, by rfl, ?_⟩
  · intro msgs hne
    rw [buildPrompt_tagged_data msgs hne]
    constructor
    · exact containsInOrder_blocksFlat msgs _
    · exact ⟨blocksFlat msgs, rfl⟩
  · intro tagged appendAssistant h
    cases tagged <;> cases appendAssistant <;> first | rfl | exact absurd ⟨rfl, rfl⟩ h

/-- C3 (witness): the amended shape at a concrete two-message input. -/
theorem buildPrompt_tagged_shape_witness :
    containsInOrder ([⟨"user", "hi"⟩, ⟨"Model", "yo"⟩].map blockData)
        (BuildPrompt [⟨"user", "hi"⟩, ⟨"Model", "yo"⟩] true true).data ∧
      "<|im_start|>assistant".data
        <:+ (BuildPrompt [⟨"user", "hi"⟩, ⟨"Model", "yo"⟩] true true).data :=
  buildPrompt_tagged_shape.1 [⟨"user", "hi"⟩, ⟨"Model", "yo"⟩] (by decide)

/-! ## C2: reuse overlap and the delta -/

theorem equalMessages_iff (a b : List Message) : EqualMessages a b = true ↔ a = b := by
  simp [EqualMessages]

theorem lhoAux_le (h c : List Message) : ∀ fuel, lhoAux h c fuel ≤ fuel := by
  intro fuel
  induction fuel with
  | zero => simp [lhoAux]
  | succ k ih =>
    simp only [lhoAux]
    split
    · exact Nat.le_refl _
    · exact Nat.le_succ_of_le ih

theorem lhoAux_eq (h c : List Message) :
    ∀ fuel, 0 < lhoAux h c fuel →
      h.drop (h.length - lhoAux h c fuel) = c.take (lhoAux h c fuel) := by
  intro fuel
  induction fuel with
  | zero => simp [lhoAux]
  | succ k ih =>
    intro hpos
    simp only [lhoAux] at hpos ⊢
    split
    · next heq =>
      exact (equalMessages_iff _ _).1 (by rw [heq])
    · next heq =>
      rw [if_neg heq] at hpos
      exact ih hpos

theorem lhoAux_max (h c : List Message) :
    ∀ fuel j, j ≤ fuel → h.drop (h.length - j) = c.take j → j ≤ lhoAux h c fuel := by
  intro fuel
  induction fuel with
  | zero => intro j hj _; omega
  | succ k ih =>
    intro j hj heq
    simp only [lhoAux]
    split
    · next =>
      by_cases hjk : j = k + 1
      · omega
      · have := lhoAux_le h c k
        omega
    · next hne =>
      by_cases hjk : j = k + 1
      · subst hjk
        exact absurd ((equalMessages_iff _ _).2 heq) (by simpa using hne)
      · exact ih j (by omega) heq

theorem lho_le_min (h c : List Message) :
    longestHistoryOverlap h c ≤ min h.length c.length :=
  lhoAux_le h c _

theorem lho_eq (h c : List Message) (hpos : 0 < longestHistoryOverlap h c) :
    h.drop (h.length - longestHistoryOverlap h c) = c.take (longestHistoryOverlap h c) :=
  lhoAux_eq h c _ hpos

theorem lho_max (h c : List Message) (j : Nat) (hj : j ≤ min h.length c.length)
    (heq : h.drop (h.length - j) = c.take j) : j ≤ longestHistoryOverlap h c :=
  lhoAux_max h c _ j hj heq

theorem reuseFromPending_some (s : AccountState) (modelName : String) (msgs : List Message)
    (p : ReuseComputation) (s1 : AccountState)
    (h : reuseFromPending s modelName msgs = (some p, s1)) :
    p.overlap = longestHistoryOverlap p.history msgs := by
  cases hm : s.pendingMatch with
  | none => simp [reuseFromPending, consumePendingMatch, hm] at h
  | some mr =>
    simp only [reuseFromPending, consumePendingMatch, hm] at h
    split at h
    · simp at h
    · split at h
      · simp at h
      · split at h
        · simp at h
        · next history hfind =>
          simp only [Prod.mk.injEq, Option.some.injEq] at h
          rw [← h.1]

theorem findReusableSession_some (s : AccountState) (modelName : String)
    (msgs : List Message) (p : ReuseComputation)
    (h : findReusableSession s modelName msgs = some p) :
    (0 < longestHistoryOverlap p.history msgs →
        p.overlap = longestHistoryOverlap p.history msgs) ∧
      (longestHistoryOverlap p.history msgs = 0 →
        ∃ r eo, FindReusableSessionIn s.convData s.convIndex s.stableClientID s.accountID
            modelName msgs = some (r, p.metadata, eo) ∧ p.overlap = eo) := by
  cases hf : FindReusableSessionIn s.convData s.convIndex s.stableClientID s.accountID
      modelName msgs with
  | none => simp [findReusableSession, hf] at h
  | some t =>
    obtain ⟨r, md, eo⟩ := t
    simp only [findReusableSession, hf] at h
    split at h
    · simp at h
    · next hne =>
      simp only [Option.some.injEq] at h
      subst h
      constructor
      · intro hpos
        dsimp only at hpos ⊢
        rw [if_pos hpos]
      · intro hzero
        dsimp only at hzero ⊢
        refine ⟨r, eo, rfl, ?_⟩
        simp [hzero]

theorem planCore_reuse_useMsgs (s : AccountState) (modelName underlying : String)
    (cleaned : List Message) (pend : Option ReuseComputation) (p : ReuseComputation)
    (s1 : AccountState) (hctx : s.reusableContext = true)
    (hpend : reuseFromPending s underlying cleaned = (pend, s1))
    (hplan : pend = some p ∨
      (pend = none ∧ findReusableSession s1 underlying cleaned = some p)) :
    (planCore s modelName underlying cleaned).1.useMsgs = deltaOf p.overlap cleaned := by
  rcases hplan with hp | ⟨hp, hf⟩
  · subst hp
    simp only [planCore, hctx, if_true, hpend, deltaOf]
  · subst hp
    simp only [planCore, hctx, if_true, hpend, hf, deltaOf]

theorem planMessages_useMsgs (s : AccountState) (modelName underlying : String)
    (messages : List Message) :
    (planMessages s modelName underlying messages).1.useMsgs
      = (planCore s modelName underlying (SanitizeAssistantMessages messages)).1.useMsgs := rfl

/-- C2 (counterexample): the recomputed overlap is not authoritative on
the index path.  A record stored with differently-cased roles is found by
the (role-normalizing) hash, but the structural recomputation against its
stored history yields 0; the planner then keeps the engine's overlap 2
and sends only the last message, while the claimed rule (overlap = the
largest k with H[|H|-k:] == C[:k], here 0) would send all of C. -/
theorem planner_overlap_counterexample :
    SanitizeAssistantMessages [⟨"user", "hi"⟩, ⟨"assistant", "yo"⟩, ⟨"user", "x"⟩]
        = [⟨"user", "hi"⟩, ⟨"assistant", "yo"⟩, ⟨"user", "x"⟩] ∧
      (StoredToMessages [⟨"User", "hi"⟩, ⟨"Model", "yo"⟩]).drop 1
          ≠ ([⟨"user", "hi"⟩, ⟨"assistant", "yo"⟩, ⟨"user", "x"⟩] : List Message).take 1 ∧
      (StoredToMessages [⟨"User", "hi"⟩, ⟨"Model", "yo"⟩]).drop 0
          ≠ ([⟨"user", "hi"⟩, ⟨"assistant", "yo"⟩, ⟨"user", "x"⟩] : List Message).take 2 ∧
      (planMessages
          ⟨"cid", "acct", [],
            [(HashConversationForAccount "cid" "m" [⟨"User", "hi"⟩, ⟨"Model", "yo"⟩],
              ⟨"m", "cid", ["t"], [⟨"User", "hi"⟩, ⟨"Model", "yo"⟩], 0, 0⟩)],
            [(HashConversationForAccount "cid" "m" [⟨"User", "hi"⟩, ⟨"Model", "yo"⟩],
              HashConversationForAccount "cid" "m" [⟨"User", "hi"⟩, ⟨"Model", "yo"⟩])],
            none, true, false⟩
          "m" "m" [⟨"user", "hi"⟩, ⟨"assistant", "yo"⟩, ⟨"user", "x"⟩]).1.useMsgs
        = [⟨"user", "x"⟩] ∧
      ([⟨"user", "x"⟩] : List Message)
        ≠ ([⟨"user", "hi"⟩, ⟨"assistant", "yo"⟩, ⟨"user", "x"⟩] : List Message).drop 0 := by
  refine ⟨by decide, by decide, by decide, by decide, by decide⟩

/-- C2 (amended): `longestHistoryOverlap` computes the largest
`k ≤ min(|H|,|C|)` with `H[|H|-k:] == C[:k]`; on the pending-match path
the planner's overlap is exactly this recomputation against the stored
history; on the index path the recomputation is used only when positive —
when it yields 0 the engine's returned overlap is kept; either way the
planner sends `useMsgs = C[overlap:]` (overlap clamped to `|C|`), and
when that delta is empty while `C` is non-empty it sends `[C[-1]]`. -/
theorem planner_overlap_and_delta :
    (∀ h c : List Message,
        longestHistoryOverlap h c ≤ min h.length c.length ∧
          (0 < longestHistoryOverlap h c →
            h.drop (h.length - longestHistoryOverlap h c)
              = c.take (longestHistoryOverlap h c)) ∧
          ∀ j, j ≤ min h.length c.length → h.drop (h.length - j) = c.take j →
            j ≤ longestHistoryOverlap h c) ∧
      (∀ (s : AccountState) (modelName underlying : String) (messages : List Message)
          (p : ReuseComputation) (s1 : AccountState), s.reusableContext = true →
          reuseFromPending s underlying (SanitizeAssistantMessages messages) = (some p, s1) →
          p.overlap = longestHistoryOverlap p.history (SanitizeAssistantMessages messages) ∧
            (planMessages s modelName underlying messages).1.useMsgs
              = deltaOf p.overlap (SanitizeAssistantMessages messages)) ∧
      ∀ (s : AccountState) (modelName underlying : String) (messages : List Message)
        (p : ReuseComputation) (s1 : AccountState), s.reusableContext = true →
        reuseFromPending s underlying (SanitizeAssistantMessages messages) = (none, s1) →
        findReusableSession s1 underlying (SanitizeAssistantMessages messages) = some p →
        (0 < longestHistoryOverlap p.history (SanitizeAssistantMessages messages) →
            p.overlap = longestHistoryOverlap p.history (SanitizeAssistantMessages messages)) ∧
          (longestHistoryOverlap p.history (SanitizeAssistantMessages messages) = 0 →
            ∃ r eo, FindReusableSessionIn s1.convData s1.convIndex s1.stableClientID
                s1.accountID underlying (SanitizeAssistantMessages messages)
                = some (r, p.metadata, eo) ∧ p.overlap = eo) ∧
          (planMessages s modelName underlying messages).1.useMsgs
            = deltaOf p.overlap (SanitizeAssistantMessages messages) := by
  refine ⟨?_, ?_, ?_⟩
  · intro h c
    exact ⟨lho_le_min h c, lho_eq h c, fun j hj heq => lho_max h c j hj heq⟩
  · intro s modelName underlying messages p s1 hctx hpend
    refine ⟨reuseFromPending_some s underlying _ p s1 hpend, ?_⟩
    rw [planMessages_useMsgs]
    exact planCore_reuse_useMsgs s modelName underlying _ (some p) p s1 hctx hpend (Or.inl rfl)
  · intro s modelName underlying messages p s1 hctx hpend hfind
    obtain ⟨h1, h2⟩ := findReusableSession_some s1 underlying _ p hfind
    refine ⟨h1, h2, ?_⟩
    rw [planMessages_useMsgs]
    exact planCore_reuse_useMsgs s modelName underlying _ none p s1 hctx hpend
      (Or.inr ⟨rfl, hfind⟩)

/-- C2 (witness): a concrete index-path reuse in which the recomputed
overlap is 2 and the delta is the single new message. -/
theorem planner_overlap_and_delta_witness :
    (planMessages
        ⟨"cid", "acct", [],
          [(HashConversationForAccount "cid" "m" [⟨"user", "hi"⟩, ⟨"assistant", "yo"⟩],
            ⟨"m", "cid", ["t"], [⟨"user", "hi"⟩, ⟨"assistant", "yo"⟩], 0, 0⟩)],
          [(HashConversationForAccount "cid" "m" [⟨"user", "hi"⟩, ⟨"assistant", "yo"⟩],
            HashConversationForAccount "cid" "m" [⟨"user", "hi"⟩, ⟨"assistant", "yo"⟩])],
          none, true, false⟩
        "m" "m" [⟨"user", "hi"⟩, ⟨"assistant", "yo"⟩, ⟨"user", "x"⟩]).1.useMsgs
      = deltaOf 2 (SanitizeAssistantMessages
          [⟨"user", "hi"⟩, ⟨"assistant", "yo"⟩, ⟨"user", "x"⟩]) :=
  (planner_overlap_and_delta.2.2
    ⟨"cid", "acct", [],
      [(HashConversationForAccount "cid" "m" [⟨"user", "hi"⟩, ⟨"assistant", "yo"⟩],
        ⟨"m", "cid", ["t"], [⟨"user", "hi"⟩, ⟨"assistant", "yo"⟩], 0, 0⟩)],
      [(HashConversationForAccount "cid" "m" [⟨"user", "hi"⟩, ⟨"assistant", "yo"⟩],
        HashConversationForAccount "cid" "m" [⟨"user", "hi"⟩, ⟨"assistant", "yo"⟩])],
      none, true, false⟩
    "m" "m" [⟨"user", "hi"⟩, ⟨"assistant", "yo"⟩, ⟨"user", "x"⟩]
    ⟨["t"], [⟨"user", "hi"⟩, ⟨"assistant", "yo"⟩], 2⟩
    ⟨"cid", "acct", [],
      [(HashConversationForAccount "cid" "m" [⟨"user", "hi"⟩, ⟨"assistant", "yo"⟩],
        ⟨"m", "cid", ["t"], [⟨"user", "hi"⟩, ⟨"assistant", "yo"⟩], 0, 0⟩)],
      [(HashConversationForAccount "cid" "m" [⟨"user", "hi"⟩, ⟨"assistant", "yo"⟩],
        HashConversationForAccount "cid" "m" [⟨"user", "hi"⟩, ⟨"assistant", "yo"⟩])],
      none, true, false⟩
    rfl (by decide) (by decide)).2.2

/-! ## C9: empty-prompt guard -/

theorem reuseFromPending_state (s : AccountState) (modelName : String)
    (msgs : List Message) :
    (reuseFromPending s modelName msgs).2 = { s with pendingMatch := none } := by
  cases hm : s.pendingMatch with
  | none => simp [reuseFromPending, consumePendingMatch, hm]
  | some mr =>
    simp only [reuseFromPending, consumePendingMatch, hm]
    split
    · rfl
    · split
      · rfl
      · split
        · rfl
        · rfl

theorem planCore_state (s : AccountState) (modelName underlying : String)
    (cleaned : List Message) :
    (planCore s modelName underlying cleaned).2 = s ∨
      (planCore s modelName underlying cleaned).2 = { s with pendingMatch := none } := by
  by_cases hr : s.reusableContext
  · right
    simp only [planCore, hr, if_true]
    split
    all_goals try split
    all_goals try split
    all_goals simp [reuseFromPending_state, hr]
  · left
    simp [planCore, hr]

theorem planMessages_conv (s : AccountState) (modelName underlying : String)
    (messages : List Message) :
    (planMessages s modelName underlying messages).2.convStore = s.convStore ∧
      (planMessages s modelName underlying messages).2.convData = s.convData ∧
      (planMessages s modelName underlying messages).2.convIndex = s.convIndex := by
  have h : (planMessages s modelName underlying messages).2
      = (planCore s modelName underlying (SanitizeAssistantMessages messages)).2 := rfl
  rcases planCore_state s modelName underlying (SanitizeAssistantMessages messages) with
    hc | hc <;> rw [h, hc] <;> exact ⟨rfl, rfl, rfl⟩

theorem preparePlan_empty (s : AccountState) (modelName underlying : String)
    (messages : List Message)
    (hempty : trimStr (assembledPrompt
        ((planMessages s modelName underlying messages).2).codeMode
        (planMessages s modelName underlying messages).1) = "") :
    preparePlan s modelName underlying messages
      = (Except.error ⟨400, "bad request: empty prompt after filtering system/thought content"⟩,
        (planMessages s modelName underlying messages).2) := by
  cases hpm : planMessages s modelName underlying messages with
  | mk p s1 =>
    rw [hpm] at hempty
    simp only at hempty
    simp only [preparePlan, hpm]
    rw [if_pos hempty]

/-- C9: when the trimmed assembled prompt is empty, the request fails with
the 400 "empty prompt" client error, the upstream is not called, and none
of the conversation keyspaces change. -/
theorem sendModel_empty_prompt (s : AccountState) (modelName underlying : String)
    (messages : List Message) (output : ModelOutput) (chatMetadata : List String)
    (now : Nat)
    (hempty : trimStr (assembledPrompt
        ((planMessages s modelName underlying messages).2).codeMode
        (planMessages s modelName underlying messages).1) = "") :
    (SendModel s modelName underlying messages output chatMetadata now).result
        = Except.error
            ⟨400, "bad request: empty prompt after filtering system/thought content"⟩ ∧
      (SendModel s modelName underlying messages output chatMetadata now).upstreamCalled
          = false ∧
      (SendModel s modelName underlying messages output chatMetadata now).state.convStore
          = s.convStore ∧
      (SendModel s modelName underlying messages output chatMetadata now).state.convData
          = s.convData ∧
      (SendModel s modelName underlying messages output chatMetadata now).state.convIndex
          = s.convIndex := by
  have hsm : SendModel s modelName underlying messages output chatMetadata now
      = ⟨Except.error ⟨400, "bad request: empty prompt after filtering system/thought content"⟩,
        false, (planMessages s modelName underlying messages).2⟩ := by
    simp only [SendModel, preparePlan_empty s modelName underlying messages hempty]
  rw [hsm]
  obtain ⟨h1, h2, h3⟩ := planMessages_conv s modelName underlying messages
  exact ⟨rfl, rfl, h1, h2, h3⟩

/-- C9 (witness): a whitespace-only user message yields an empty trimmed
prompt and the 400 error with unchanged caches. -/
theorem sendModel_empty_prompt_witness :
    (SendModel ⟨"cid", "acct", [], [], [], none, true, false⟩ "m" "m"
          [⟨"user", " "⟩] ⟨[], 0⟩ [] 0).result
        = Except.error
            ⟨400, "bad request: empty prompt after filtering system/thought content"⟩ ∧
      (SendModel ⟨"cid", "acct", [], [], [], none, true, false⟩ "m" "m"
          [⟨"user", " "⟩] ⟨[], 0⟩ [] 0).upstreamCalled = false := by
  have h := sendModel_empty_prompt ⟨"cid", "acct", [], [], [], none, true, false⟩ "m" "m"
    [⟨"user", " "⟩] ⟨[], 0⟩ [] 0 (by decide)
  exact ⟨h.1, h.2.1⟩

/-! ## C6: the image-only "Done" hook -/

/-- C6 (code evaluation at the failing input): with chosen candidate 1
(empty text, one generated image), the hook rewrites the chosen
candidate's text to `"Done"` — so the converted response text is
`"Done"` — but `buildConversationRecord` reads candidate 0, so the
persisted record's final assistant message text is `""`, not `"Done"`,
contradicting the code's own stated intent that conversion and
persistence observe the same fallback. -/
theorem imagePreview_persist_mismatch :
    trimStr "" = "" ∧
      convertedText (applyImageTextHook "gemini-2.5-flash-image-preview"
          ⟨[⟨"", 0, 0⟩, ⟨"", 1, 0⟩], 1⟩) = "Done" ∧
      (mlookup (SendModel ⟨"cid", "acct", [], [], [], none, true, false⟩
            "gemini-2.5-flash-image-preview" "gemini-2.5-flash-image-preview"
            [⟨"user", "draw"⟩] ⟨[⟨"", 0, 0⟩, ⟨"", 1, 0⟩], 1⟩ ["t"] 0).state.convData
          (HashConversationForAccount "cid" "gemini-2.5-flash-image-preview"
            (ToStoredMessages [⟨"user", "draw"⟩, ⟨"assistant", ""⟩]))).map
          (fun r => (r.messages.getLast?).map (fun m => m.content))
        = some (some "") ∧
      ("" : String) ≠ "Done" := by
  refine ⟨by decide, by decide, by decide, by decide⟩

/-! ## C1 / C10: persistence lemmas -/

theorem mlookup_minsert {α β : Type} [DecidableEq α] (l : List (α × β)) (key k : α) (v : β) :
    mlookup (minsert l key v) k = if k = key then some v else mlookup l k := by
  by_cases h : k = key
  · subst h
    simp [mlookup_minsert_self]
  · simp [h, mlookup_minsert_ne l key k v h]

theorem persistSegStep_mono (cid acct u : String) (primary : HashVal)
    (segment : List Message) (seen : List HashVal) (index : List (HashVal × HashVal))
    (k : HashVal) (hk : k ∈ seen) :
    k ∈ (persistSegStep cid acct u primary segment seen index).1 := by
  simp only [persistSegStep]
  repeat' split
  all_goals simp [List.mem_cons, hk]

theorem persistSegStep_inv (cid acct u : String) (primary : HashVal)
    (segment : List Message) (seen : List HashVal) (index : List (HashVal × HashVal))
    (hinv : ∀ k ∈ seen, mlookup index k = some primary) :
    ∀ k ∈ (persistSegStep cid acct u primary segment seen index).1,
      mlookup (persistSegStep cid acct u primary segment seen index).2 k = some primary := by
  have hext : ∀ (sn : List HashVal) (ix : List (HashVal × HashVal)) (h : HashVal),
      (∀ k ∈ sn, mlookup ix k = some primary) →
      ∀ k ∈ h :: sn, mlookup (minsert ix h primary) k = some primary := by
    intro sn ix h hi k hk
    rw [mlookup_minsert]
    by_cases he : k = h
    · simp [he]
    · rcases List.mem_cons.1 hk with h1 | h1
      · exact absurd h1 he
      · simp [he, hi k h1]
  simp only [persistSegStep]
  repeat' split
  all_goals first
    | exact hinv
    | exact hext _ _ _ hinv
    | exact hext _ _ _ (hext _ _ _ hinv)

theorem persistSegStep_covers (cid acct u : String) (primary : HashVal)
    (segment : List Message) (seen : List HashVal) (index : List (HashVal × HashVal))
    (hlen : segment.length ≥ 2) (hrole : tailRoleOk segment = true) :
    HashConversationForAccount cid u (ToStoredMessages segment)
        ∈ (persistSegStep cid acct u primary segment seen index).1 ∧
      HashConversationForAccount acct u (ToStoredMessages segment)
        ∈ (persistSegStep cid acct u primary segment seen index).1 := by
  simp only [persistSegStep]
  rw [if_pos ⟨hlen, hrole⟩]
  constructor
  all_goals split_ifs
  all_goals simp_all [List.mem_cons]

theorem persistSegStep_newkeys (cid acct u : String) (primary : HashVal)
    (segment : List Message) (seen : List HashVal) (index : List (HashVal × HashVal))
    (k v : HashVal) :
    mlookup (persistSegStep cid acct u primary segment seen index).2 k = some v →
      mlookup index k = some v ∨ v = primary := by
  have hone : ∀ (ix : List (HashVal × HashVal)) (hh : HashVal),
      mlookup (minsert ix hh primary) k = some v → mlookup ix k = some v ∨ v = primary := by
    intro ix hh hl
    rw [mlookup_minsert] at hl
    by_cases he : k = hh
    · rw [if_pos he] at hl
      exact Or.inr (Option.some.inj hl).symm
    · rw [if_neg he] at hl
      exact Or.inl hl
  simp only [persistSegStep]
  repeat' split
  all_goals intro h
  all_goals first
    | exact Or.inl h
    | exact hone _ _ h
    | (rcases hone _ _ h with h2 | h2
       · exact hone _ _ h2
       · exact Or.inr h2)

theorem persistSuffixes_mono (cid acct u : String) (primary : HashVal) :
    ∀ (segs : List Message) (seen : List HashVal) (index : List (HashVal × HashVal))
      (k : HashVal), k ∈ seen →
      k ∈ (persistSuffixes cid acct u primary segs seen index).1 := by
  intro segs
  induction segs with
  | nil => intro seen index k hk; exact hk
  | cons m rest ih =>
    intro seen index k hk
    exact ih _ _ k (persistSegStep_mono cid acct u primary (m :: rest) seen index k hk)

theorem persistSuffixes_inv (cid acct u : String) (primary : HashVal) :
    ∀ (segs : List Message) (seen : List HashVal) (index : List (HashVal × HashVal)),
      (∀ k ∈ seen, mlookup index k = some primary) →
      ∀ k ∈ (persistSuffixes cid acct u primary segs seen index).1,
        mlookup (persistSuffixes cid acct u primary segs seen index).2 k = some primary := by
  intro segs
  induction segs with
  | nil => intro seen index hinv; exact hinv
  | cons m rest ih =>
    intro seen index hinv
    exact ih _ _ (persistSegStep_inv cid acct u primary (m :: rest) seen index hinv)

theorem persistSuffixes_newkeys (cid acct u : String) (primary : HashVal) :
    ∀ (segs : List Message) (seen : List HashVal) (index : List (HashVal × HashVal))
      (k v : HashVal),
      mlookup (persistSuffixes cid acct u primary segs seen index).2 k = some v →
      mlookup index k = some v ∨ v = primary := by
  intro segs
  induction segs with
  | nil => intro seen index k v h; exact Or.inl h
  | cons m rest ih =>
    intro seen index k v h
    rcases ih _ _ k v h with h2 | h2
    · exact persistSegStep_newkeys cid acct u primary (m :: rest) seen index k v h2
    · exact Or.inr h2

theorem persistSuffixes_covers (cid acct u : String) (primary : HashVal) :
    ∀ (segs : List Message) (seen : List HashVal) (index : List (HashVal × HashVal))
      (j : Nat), j < segs.length → (segs.drop j).length ≥ 2 →
      tailRoleOk (segs.drop j) = true →
      HashConversationForAccount cid u (ToStoredMessages (segs.drop j))
          ∈ (persistSuffixes cid acct u primary segs seen index).1 ∧
        HashConversationForAccount acct u (ToStoredMessages (segs.drop j))
          ∈ (persistSuffixes cid acct u primary segs seen index).1 := by
  intro segs
  induction segs with
  | nil => intro seen index j hj; simp at hj
  | cons m rest ih =>
    intro seen index j hj hlen hrole
    cases j with
    | zero =>
      simp only [List.drop_zero] at hlen hrole ⊢
      obtain ⟨h1, h2⟩ := persistSegStep_covers cid acct u primary (m :: rest) seen index
        hlen hrole
      exact ⟨persistSuffixes_mono cid acct u primary rest _ _ _ h1,
        persistSuffixes_mono cid acct u primary rest _ _ _ h2⟩
    | succ j' =>
      simp only [List.drop_succ_cons] at hlen hrole ⊢
      exact ih _ _ j' (by simpa using hj) hlen hrole

theorem persistConvMaps_data_lookup (acct u : String) (r : ConversationRecord)
    (data : List (HashVal × ConversationRecord)) (index : List (HashVal × HashVal)) :
    mlookup (persistConvMaps acct u r data index).1
        (HashConversationForAccount r.clientID u r.messages) = some r := by
  simp only [persistConvMaps]
  exact mlookup_minsert_self data _ r

theorem persistConvMaps_seen0_inv (acct u : String) (r : ConversationRecord)
    (index : List (HashVal × HashVal)) :
    ∀ k ∈ (if HashConversationForAccount acct u r.messages
          ≠ HashConversationForAccount r.clientID u r.messages then
        [HashConversationForAccount r.clientID u r.messages,
          HashConversationForAccount acct u r.messages]
      else [HashConversationForAccount r.clientID u r.messages]),
      mlookup (if HashConversationForAccount acct u r.messages
            ≠ HashConversationForAccount r.clientID u r.messages then
          minsert (minsert index (HashConversationForAccount r.clientID u r.messages)
              (HashConversationForAccount r.clientID u r.messages))
            (HashConversationForAccount acct u r.messages)
            (HashConversationForAccount r.clientID u r.messages)
        else minsert index (HashConversationForAccount r.clientID u r.messages)
            (HashConversationForAccount r.clientID u r.messages)) k
        = some (HashConversationForAccount r.clientID u r.messages) := by
  by_cases hne : HashConversationForAccount acct u r.messages
      = HashConversationForAccount r.clientID u r.messages
  · rw [if_neg (by simp [hne]), if_neg (by simp [hne])]
    intro k hk
    simp only [List.mem_singleton] at hk
    subst hk
    exact mlookup_minsert_self _ _ _
  · rw [if_pos hne, if_pos hne]
    intro k hk
    simp only [List.mem_cons, List.mem_singleton, List.not_mem_nil, or_false] at hk
    rcases hk with hk | hk <;> subst hk
    · rw [mlookup_minsert, if_neg (fun he => hne he.symm)]
      exact mlookup_minsert_self _ _ _
    · exact mlookup_minsert_self _ _ _

theorem persistConvMaps_index_full (acct u : String) (r : ConversationRecord)
    (data : List (HashVal × ConversationRecord)) (index : List (HashVal × HashVal)) :
    mlookup (persistConvMaps acct u r data index).2
        (HashConversationForAccount r.clientID u r.messages)
      = some (HashConversationForAccount r.clientID u r.messages) ∧
      mlookup (persistConvMaps acct u r data index).2
          (HashConversationForAccount acct u r.messages)
        = some (HashConversationForAccount r.clientID u r.messages) := by
  simp only [persistConvMaps]
  constructor
  · exact persistSuffixes_inv _ _ _ _ _ _ _ (persistConvMaps_seen0_inv acct u r index) _
      (persistSuffixes_mono _ _ _ _ _ _ _ _ (by split_ifs <;> simp))
  · exact persistSuffixes_inv _ _ _ _ _ _ _ (persistConvMaps_seen0_inv acct u r index) _
      (persistSuffixes_mono _ _ _ _ _ _ _ _ (by split_ifs <;> simp_all))

theorem persistConvMaps_index_segment (acct u : String) (r : ConversationRecord)
    (data : List (HashVal × ConversationRecord)) (index : List (HashVal × HashVal))
    (st : Nat) (h1 : 1 ≤ st)
    (hlt : st < (SanitizeAssistantMessages (StoredToMessages r.messages)).length)
    (hlen : ((SanitizeAssistantMessages (StoredToMessages r.messages)).drop st).length ≥ 2)
    (hrole : tailRoleOk
      ((SanitizeAssistantMessages (StoredToMessages r.messages)).drop st) = true) :
    mlookup (persistConvMaps acct u r data index).2
        (HashConversationForAccount r.clientID u (ToStoredMessages
          ((SanitizeAssistantMessages (StoredToMessages r.messages)).drop st)))
      = some (HashConversationForAccount r.clientID u r.messages) ∧
      mlookup (persistConvMaps acct u r data index).2
          (HashConversationForAccount acct u (ToStoredMessages
            ((SanitizeAssistantMessages (StoredToMessages r.messages)).drop st)))
        = some (HashConversationForAccount r.clientID u r.messages) := by
  have hdrop : ((SanitizeAssistantMessages (StoredToMessages r.messages)).drop 1).drop (st - 1)
      = (SanitizeAssistantMessages (StoredToMessages r.messages)).drop st := by
    rw [List.drop_drop]
    congr 1
    omega
  have hj : st - 1 < ((SanitizeAssistantMessages (StoredToMessages r.messages)).drop 1).length := by
    rw [List.length_drop]
    omega
  obtain ⟨hc1, hc2⟩ := persistSuffixes_covers r.clientID acct u
    (HashConversationForAccount r.clientID u r.messages)
    ((SanitizeAssistantMessages (StoredToMessages r.messages)).drop 1)
    (if HashConversationForAccount acct u r.messages
          ≠ HashConversationForAccount r.clientID u r.messages then
        [HashConversationForAccount r.clientID u r.messages,
          HashConversationForAccount acct u r.messages]
      else [HashConversationForAccount r.clientID u r.messages])
    (if HashConversationForAccount acct u r.messages
          ≠ HashConversationForAccount r.clientID u r.messages then
        minsert (minsert index (HashConversationForAccount r.clientID u r.messages)
            (HashConversationForAccount r.clientID u r.messages))
          (HashConversationForAccount acct u r.messages)
          (HashConversationForAccount r.clientID u r.messages)
      else minsert index (HashConversationForAccount r.clientID u r.messages)
          (HashConversationForAccount r.clientID u r.messages))
    (st - 1) hj (by rw [hdrop]; exact hlen) (by rw [hdrop]; exact hrole)
  rw [hdrop] at hc1 hc2
  simp only [persistConvMaps]
  exact ⟨persistSuffixes_inv _ _ _ _ _ _ _ (persistConvMaps_seen0_inv acct u r index) _ hc1,
    persistSuffixes_inv _ _ _ _ _ _ _ (persistConvMaps_seen0_inv acct u r index) _ hc2⟩

theorem persistConvMaps_index_newkeys (acct u : String) (r : ConversationRecord)
    (data : List (HashVal × ConversationRecord)) (index : List (HashVal × HashVal))
    (k v : HashVal)
    (h : mlookup (persistConvMaps acct u r data index).2 k = some v) :
    mlookup index k = some v ∨ v = HashConversationForAccount r.clientID u r.messages := by
  simp only [persistConvMaps] at h
  have hone : ∀ (ix : List (HashVal × HashVal)) (hh : HashVal),
      mlookup (minsert ix hh (HashConversationForAccount r.clientID u r.messages)) k = some v →
      mlookup ix k = some v ∨ v = HashConversationForAccount r.clientID u r.messages := by
    intro ix hh hl
    rw [mlookup_minsert] at hl
    by_cases he : k = hh
    · rw [if_pos he] at hl
      exact Or.inr (Option.some.inj hl).symm
    · rw [if_neg he] at hl
      exact Or.inl hl
  rcases persistSuffixes_newkeys _ _ _ _ _ _ _ k v h with h2 | h2
  · by_cases hne : HashConversationForAccount acct u r.messages
        = HashConversationForAccount r.clientID u r.messages
    · rw [if_neg (by simp [hne])] at h2
      exact hone _ _ h2
    · rw [if_pos hne] at h2
      rcases hone _ _ h2 with h3 | h3
      · exact hone _ _ h3
      · exact Or.inr h3
  · exact Or.inr h2

/-! ## C1: the reusable-session search loop -/

theorem frskAux_zero (items : List (HashVal × Bool)) (index : List (HashVal × HashVal))
    (cid email model : String) (msgs : List Message) :
    FindReusableAux items index cid email model msgs 0 = none := rfl

theorem frskAux_one (items : List (HashVal × Bool)) (index : List (HashVal × HashVal))
    (cid email model : String) (msgs : List Message) :
    FindReusableAux items index cid email model msgs 1 = none := rfl

theorem frskAux_step (items : List (HashVal × Bool)) (index : List (HashVal × HashVal))
    (cid email model : String) (msgs : List Message) (n : Nat) :
    FindReusableAux items index cid email model msgs (n + 2)
      = match lookupHitAt items index cid email model msgs (n + 2) with
        | some key => some (key, n + 2)
        | none => FindReusableAux items index cid email model msgs (n + 1) := rfl

theorem frskAux_some (items : List (HashVal × Bool)) (index : List (HashVal × HashVal))
    (cid email model : String) (msgs : List Message) :
    ∀ fuel key o, FindReusableAux items index cid email model msgs fuel = some (key, o) →
      2 ≤ o ∧ o ≤ fuel ∧ lookupHitAt items index cid email model msgs o = some key ∧
        ∀ j, o < j → j ≤ fuel → lookupHitAt items index cid email model msgs j = none := by
  intro fuel
  induction fuel using Nat.strong_induction_on with
  | _ fuel ih =>
    match fuel with
    | 0 => intro key o h; simp [frskAux_zero] at h
    | 1 => intro key o h; simp [frskAux_one] at h
    | (n + 2) =>
      intro key o h
      rw [frskAux_step] at h
      cases hhit : lookupHitAt items index cid email model msgs (n + 2) with
      | some k2 =>
        rw [hhit] at h
        simp only [Option.some.injEq, Prod.mk.injEq] at h
        obtain ⟨hk, ho⟩ := h
        subst hk
        subst ho
        exact ⟨by omega, Nat.le_refl _, hhit, fun j hj1 hj2 => by omega⟩
      | none =>
        rw [hhit] at h
        obtain ⟨h1, h2, h3, h4⟩ := ih (n + 1) (by omega) key o h
        refine ⟨h1, by omega, h3, ?_⟩
        intro j hj1 hj2
        by_cases hje : j = n + 2
        · exact hje ▸ hhit
        · exact h4 j hj1 (by omega)

theorem frskAux_none (items : List (HashVal × Bool)) (index : List (HashVal × HashVal))
    (cid email model : String) (msgs : List Message) :
    ∀ fuel, FindReusableAux items index cid email model msgs fuel = none →
      ∀ j, 2 ≤ j → j ≤ fuel → lookupHitAt items index cid email model msgs j = none := by
  intro fuel
  induction fuel using Nat.strong_induction_on with
  | _ fuel ih =>
    match fuel with
    | 0 => intro _ j hj1 hj2; omega
    | 1 => intro _ j hj1 hj2; omega
    | (n + 2) =>
      intro h j hj1 hj2
      rw [frskAux_step] at h
      cases hhit : lookupHitAt items index cid email model msgs (n + 2) with
      | some k2 => rw [hhit] at h; simp at h
      | none =>
        rw [hhit] at h
        by_cases hje : j = n + 2
        · exact hje ▸ hhit
        · exact ih (n + 1) (by omega) h j hj1 (by omega)

theorem frskAux_lower (items : List (HashVal × Bool)) (index : List (HashVal × HashVal))
    (cid email model : String) (msgs : List Message) :
    ∀ fuel k, 2 ≤ k → k ≤ fuel →
      lookupHitAt items index cid email model msgs k ≠ none →
      ∃ key o, FindReusableAux items index cid email model msgs fuel = some (key, o) ∧
        k ≤ o := by
  intro fuel
  induction fuel using Nat.strong_induction_on with
  | _ fuel ih =>
    match fuel with
    | 0 => intro k hk1 hk2 _; omega
    | 1 => intro k hk1 hk2 _; omega
    | (n + 2) =>
      intro k hk1 hk2 hne
      rw [frskAux_step]
      cases hhit : lookupHitAt items index cid email model msgs (n + 2) with
      | some k2 => exact ⟨k2, n + 2, rfl, by omega⟩
      | none =>
        by_cases hke : k = n + 2
        · exact absurd (hke ▸ hhit) hne
        · obtain ⟨key, o, ho, hko⟩ := ih (n + 1) (by omega) k hk1 (by omega) hne
          exact ⟨key, o, ho, hko⟩

theorem toStored_storedTo (l : List StoredMessage) :
    ToStoredMessages (StoredToMessages l) = l := by
  induction l with
  | nil => rfl
  | cons m rest ih =>
    show (⟨m.role, m.content⟩ : StoredMessage) :: ToStoredMessages (StoredToMessages rest)
      = m :: rest
    rw [ih]

theorem take_getLast? (msgs : List Message) (k : Nat) (h1 : 1 ≤ k) (h2 : k ≤ msgs.length) :
    (msgs.take k).getLast? = msgs[k - 1]? := by
  rw [List.getLast?_eq_getElem?, List.length_take, List.getElem?_take,
    if_pos (by omega : min k msgs.length - 1 < k)]
  congr 1
  omega

theorem equalFold_of_lower (r lit : String) (hlit : lowerStr lit = lit)
    (h : lowerStr r = lit) : equalFold r lit = true := by
  simp only [equalFold, h, hlit, decide_eq_true_eq]

theorem lower_eq_imp_trim (r lit : String) (hlit : trimStr lit = lit)
    (h : lowerStr r = lit) : lowerStr (trimStr r) = lit := by
  rw [← trimStr_lowerStr, h, hlit]

theorem lookupHitAt_persist (acct u cid : String) (r : ConversationRecord)
    (data : List (HashVal × ConversationRecord)) (index : List (HashVal × HashVal))
    (msgs : List Message) (k : Nat)
    (hcid : r.clientID = cid)
    (hsan : SanitizeAssistantMessages (StoredToMessages r.messages)
      = StoredToMessages r.messages)
    (hk2 : 2 ≤ k) (hkH : k ≤ (StoredToMessages r.messages).length) (hkM : k ≤ msgs.length)
    (hsuffix : msgs.take k = (StoredToMessages r.messages).drop
      ((StoredToMessages r.messages).length - k))
    (hrole : ∀ m, msgs[k - 1]? = some m →
      lowerStr m.role = "assistant" ∨ lowerStr m.role = "system") :
    lookupHitAt ((persistConvMaps acct u r data index).1.map fun p => (p.1, true))
        (persistConvMaps acct u r data index).2 cid acct u msgs k
      = some (HashConversationForAccount r.clientID u r.messages) := by
  subst hcid
  have hlt : k - 1 < msgs.length := by omega
  have hm : msgs[k - 1]? = some msgs[k - 1] := List.getElem?_eq_getElem hlt
  have hfold : (equalFold (msgs[k - 1]).role "assistant"
      || equalFold (msgs[k - 1]).role "system") = true := by
    rcases hrole _ hm with h | h
    · rw [equalFold_of_lower _ _ (by decide) h]
      simp
    · rw [equalFold_of_lower _ _ (by decide) h]
      simp
  have hidx : mlookup (persistConvMaps acct u r data index).2
      (HashConversationForAccount r.clientID u (ToStoredMessages (msgs.take k)))
      = some (HashConversationForAccount r.clientID u r.messages) := by
    by_cases hkfull : k = (StoredToMessages r.messages).length
    · have htk : msgs.take k = StoredToMessages r.messages := by
        rw [hsuffix, hkfull, Nat.sub_self, List.drop_zero]
      rw [htk, toStored_storedTo]
      exact (persistConvMaps_index_full acct u r data index).1
    · have hst1 : 1 ≤ (StoredToMessages r.messages).length - k := by omega
      have hstlt : (StoredToMessages r.messages).length - k
          < (SanitizeAssistantMessages (StoredToMessages r.messages)).length := by
        rw [hsan]
        omega
      have hseg : (SanitizeAssistantMessages (StoredToMessages r.messages)).drop
          ((StoredToMessages r.messages).length - k) = msgs.take k := by
        rw [hsan, ← hsuffix]
      have hlen2 : ((SanitizeAssistantMessages (StoredToMessages r.messages)).drop
          ((StoredToMessages r.messages).length - k)).length ≥ 2 := by
        rw [hseg, List.length_take]
        omega
      have hro : tailRoleOk ((SanitizeAssistantMessages (StoredToMessages r.messages)).drop
          ((StoredToMessages r.messages).length - k)) = true := by
        rw [hseg]
        simp only [tailRoleOk, take_getLast? msgs k (by omega) hkM, hm]
        rcases hrole _ hm with h | h
        · rw [lower_eq_imp_trim _ _ (by decide) h]
          simp
        · rw [lower_eq_imp_trim _ _ (by decide) h]
          simp
      have := (persistConvMaps_index_segment acct u r data index
        ((StoredToMessages r.messages).length - k) hst1 hstlt hlen2 hro).1
      rwa [hseg] at this
  have hitems : mhas ((persistConvMaps acct u r data index).1.map fun p => (p.1, true))
      (HashConversationForAccount r.clientID u r.messages) = true := by
    rw [mhas_keySet, persistConvMaps_data_lookup]
    rfl
  have hne : msgs.take k ≠ [] := by
    have hlen : (msgs.take k).length = k := by
      rw [List.length_take]
      omega
    intro he
    rw [he] at hlen
    simp at hlen
    omega
  have hfck : FindConversationKey
      ((persistConvMaps acct u r data index).1.map fun p => (p.1, true))
      (persistConvMaps acct u r data index).2 r.clientID acct u (msgs.take k)
      = some (HashConversationForAccount r.clientID u r.messages) := by
    rw [FindConversationKey, if_neg hne]
    have hfbmh : FindByMessageHash
        ((persistConvMaps acct u r data index).1.map fun p => (p.1, true))
        (persistConvMaps acct u r data index).2 r.clientID acct u (msgs.take k)
        = some (HashConversationForAccount r.clientID u r.messages) := by
      simp only [FindByMessageHash, probeIdx, hidx, hitems, if_true, Option.orElse]
    rw [hfbmh]
    rfl
  simp only [lookupHitAt, take_getLast? msgs k (by omega) hkM, hm, hfold, if_true, hfck]

/-- C1 (counterexample): the maximality clause fails at `k = 1`.  A
session with history `[user a, assistant b]` is persisted; the incoming
list `[assistant b, user x]` shares its first message with the history's
last one and that message's role is assistant, yet the search returns no
match (overlap 0 < 1), because the loop never probes prefixes shorter
than 2. -/
theorem findReusableSessionKey_k1_counterexample :
    SanitizeAssistantMessages (StoredToMessages [⟨"user", "a"⟩, ⟨"assistant", "b"⟩])
        = StoredToMessages [⟨"user", "a"⟩, ⟨"assistant", "b"⟩] ∧
      (StoredToMessages [⟨"user", "a"⟩, ⟨"assistant", "b"⟩]).drop 1
        = ([⟨"assistant", "b"⟩, ⟨"user", "x"⟩] : List Message).take 1 ∧
      lowerStr (Message.role ⟨"assistant", "b"⟩) = "assistant" ∧
      FindReusableSessionKey
          ((persistConvMaps "acct" "m"
              ⟨"m", "cid", ["t"], [⟨"user", "a"⟩, ⟨"assistant", "b"⟩], 0, 0⟩ [] []).1.map
            fun p => (p.1, true))
          (persistConvMaps "acct" "m"
              ⟨"m", "cid", ["t"], [⟨"user", "a"⟩, ⟨"assistant", "b"⟩], 0, 0⟩ [] []).2
          "cid" "acct" "m" [⟨"assistant", "b"⟩, ⟨"user", "x"⟩] = none := by
  refine ⟨by decide, by decide, by decide, by decide⟩

/-- C1 (amended): for lists shorter than 2 the search returns no match;
when it returns `(key, o)`, `o` is the largest end in `[2, |M|]` whose
prefix has a qualifying tail role and matches a stored session (first hit
from the top wins), and a `none` result means no such end exists; and
after a record with sanitized stored history `H` is persisted under the
same model and identifiers, the search returns overlap `≥ k` for every
`k ≥ 2` with `H[|H|-k:] = M[:k]` and `M[k-1]`'s role folding to assistant
or system. -/
theorem findReusableSessionKey_spec :
    (∀ (items : List (HashVal × Bool)) (index : List (HashVal × HashVal))
        (cid email model : String) (msgs : List Message), msgs.length < 2 →
        FindReusableSessionKey items index cid email model msgs = none) ∧
      (∀ (items : List (HashVal × Bool)) (index : List (HashVal × HashVal))
          (cid email model : String) (msgs : List Message) (key : HashVal) (o : Nat),
        FindReusableSessionKey items index cid email model msgs = some (key, o) →
        2 ≤ o ∧ o ≤ msgs.length ∧
          lookupHitAt items index cid email model msgs o = some key ∧
          ∀ j, o < j → j ≤ msgs.length →
            lookupHitAt items index cid email model msgs j = none) ∧
      (∀ (items : List (HashVal × Bool)) (index : List (HashVal × HashVal))
          (cid email model : String) (msgs : List Message),
        FindReusableSessionKey items index cid email model msgs = none →
        ∀ j, 2 ≤ j → j ≤ msgs.length →
          lookupHitAt items index cid email model msgs j = none) ∧
      ∀ (acct u cid : String) (r : ConversationRecord)
        (data : List (HashVal × ConversationRecord)) (index : List (HashVal × HashVal))
        (msgs : List Message) (k : Nat),
        r.clientID = cid →
        SanitizeAssistantMessages (StoredToMessages r.messages)
          = StoredToMessages r.messages →
        2 ≤ k → k ≤ (StoredToMessages r.messages).length → k ≤ msgs.length →
        msgs.take k = (StoredToMessages r.messages).drop
          ((StoredToMessages r.messages).length - k) →
        (∀ m, msgs[k - 1]? = some m →
          lowerStr m.role = "assistant" ∨ lowerStr m.role = "system") →
        ∃ key o, FindReusableSessionKey
            ((persistConvMaps acct u r data index).1.map fun p => (p.1, true))
            (persistConvMaps acct u r data index).2 cid acct u msgs = some (key, o) ∧
          k ≤ o := by
  refine ⟨?_, ?_, ?_, ?_⟩
  · intro items index cid email model msgs h
    rw [FindReusableSessionKey, if_pos h]
  · intro items index cid email model msgs key o h
    rw [FindReusableSessionKey] at h
    by_cases hlen : msgs.length < 2
    · rw [if_pos hlen] at h
      simp at h
    · rw [if_neg hlen] at h
      exact frskAux_some items index cid email model msgs msgs.length key o h
  · intro items index cid email model msgs h j hj1 hj2
    rw [FindReusableSessionKey] at h
    by_cases hlen : msgs.length < 2
    · omega
    · rw [if_neg hlen] at h
      exact frskAux_none items index cid email model msgs msgs.length h j hj1 hj2
  · intro acct u cid r data index msgs k hcid hsan hk2 hkH hkM hsuffix hrole
    have hhit := lookupHitAt_persist acct u cid r data index msgs k hcid hsan hk2 hkH
      hkM hsuffix hrole
    have hne : lookupHitAt ((persistConvMaps acct u r data index).1.map fun p => (p.1, true))
        (persistConvMaps acct u r data index).2 cid acct u msgs k ≠ none := by
      rw [hhit]
      simp
    obtain ⟨key, o, ho, hko⟩ := frskAux_lower _ _ cid acct u msgs msgs.length k hk2
      (by omega) hne
    refine ⟨key, o, ?_, hko⟩
    rw [FindReusableSessionKey, if_neg (by omega)]
    exact ho

/-- C1 (witness): after persisting `[user a, assistant b]`, the incoming
list `[user a, assistant b, user x]` matches with overlap at least 2. -/
theorem findReusableSessionKey_spec_witness :
    ∃ key o, FindReusableSessionKey
        ((persistConvMaps "acct" "m"
            ⟨"m", "cid", ["t"], [⟨"user", "a"⟩, ⟨"assistant", "b"⟩], 0, 0⟩ [] []).1.map
          fun p => (p.1, true))
        (persistConvMaps "acct" "m"
            ⟨"m", "cid", ["t"], [⟨"user", "a"⟩, ⟨"assistant", "b"⟩], 0, 0⟩ [] []).2
        "cid" "acct" "m" [⟨"user", "a"⟩, ⟨"assistant", "b"⟩, ⟨"user", "x"⟩]
      = some (key, o) ∧ 2 ≤ o :=
  findReusableSessionKey_spec.2.2.2 "acct" "m" "cid"
    ⟨"m", "cid", ["t"], [⟨"user", "a"⟩, ⟨"assistant", "b"⟩], 0, 0⟩ [] []
    [⟨"user", "a"⟩, ⟨"assistant", "b"⟩, ⟨"user", "x"⟩] 2
    rfl (by decide) (by decide) (by decide) (by decide) (by decide)
    (by decide)

/-! ## C10: the persist-time index invariant -/

/-- C10 (counterexample): the full *sanitized* history is not always
indexed.  Persisting a record whose stored messages are two consecutive
assistant turns indexes only the raw two-message hash; the hash of the
sanitized (coalesced) full history is absent from the index. -/
theorem persist_sanitized_full_counterexample :
    SanitizeAssistantMessages
        (StoredToMessages [⟨"assistant", "a"⟩, ⟨"assistant", "b"⟩])
        = [⟨"assistant", "a\nb"⟩] ∧
      mlookup (persistConvMaps "acct" "m"
            ⟨"m", "cid", ["t"], [⟨"assistant", "a"⟩, ⟨"assistant", "b"⟩], 0, 0⟩ [] []).2
          (HashConversationForAccount "cid" "m" (ToStoredMessages
            (SanitizeAssistantMessages
              (StoredToMessages [⟨"assistant", "a"⟩, ⟨"assistant", "b"⟩]))))
        = none := by
  refine ⟨by decide, by decide⟩

/-- C10 (amended): after the conversation-cache mutation of
`persistConversation`, the index maps the hash of the *stored* message
list (under both the record's client-ID salt and the account-ID salt) and
the hashes of every qualifying proper suffix of the *sanitized* history
(length ≥ 2, assistant/system tail, both salts) to the record's single
primary key; that key is present in the items map; and every index entry
the operation adds or overwrites points at that key, so no orphaned index
entry is created. -/
theorem persist_index_postcondition :
    ∀ (acct u : String) (r : ConversationRecord)
      (data : List (HashVal × ConversationRecord)) (index : List (HashVal × HashVal)),
      (mlookup (persistConvMaps acct u r data index).2
          (HashConversationForAccount r.clientID u r.messages)
        = some (HashConversationForAccount r.clientID u r.messages) ∧
        mlookup (persistConvMaps acct u r data index).2
            (HashConversationForAccount acct u r.messages)
          = some (HashConversationForAccount r.clientID u r.messages)) ∧
      (∀ st, 1 ≤ st →
        st < (SanitizeAssistantMessages (StoredToMessages r.messages)).length →
        ((SanitizeAssistantMessages (StoredToMessages r.messages)).drop st).length ≥ 2 →
        tailRoleOk ((SanitizeAssistantMessages (StoredToMessages r.messages)).drop st)
          = true →
        mlookup (persistConvMaps acct u r data index).2
            (HashConversationForAccount r.clientID u (ToStoredMessages
              ((SanitizeAssistantMessages (StoredToMessages r.messages)).drop st)))
          = some (HashConversationForAccount r.clientID u r.messages) ∧
          mlookup (persistConvMaps acct u r data index).2
              (HashConversationForAccount acct u (ToStoredMessages
                ((SanitizeAssistantMessages (StoredToMessages r.messages)).drop st)))
            = some (HashConversationForAccount r.clientID u r.messages)) ∧
      mlookup (persistConvMaps acct u r data index).1
          (HashConversationForAccount r.clientID u r.messages) = some r ∧
      ∀ k v, mlookup (persistConvMaps acct u r data index).2 k = some v →
        mlookup index k = some v ∨
          (v = HashConversationForAccount r.clientID u r.messages ∧
            mlookup (persistConvMaps acct u r data index).1 v = some r) := by
  intro acct u r data index
  refine ⟨persistConvMaps_index_full acct u r data index, ?_, ?_, ?_⟩
  · intro st h1 h2 h3 h4
    exact persistConvMaps_index_segment acct u r data index st h1 h2 h3 h4
  · exact persistConvMaps_data_lookup acct u r data index
  · intro k v h
    rcases persistConvMaps_index_newkeys acct u r data index k v h with h2 | h2
    · exact Or.inl h2
    · subst h2
      exact Or.inr ⟨rfl, persistConvMaps_data_lookup acct u r data index⟩

/-- C10 (witness): a concrete four-message sanitized history; the proper
suffix dropping the first message (length 3, assistant tail) is indexed
under both salts to the live primary key. -/
theorem persist_index_postcondition_witness :
    mlookup (persistConvMaps "acct" "m"
          ⟨"m", "cid", ["t"],
            [⟨"user", "a"⟩, ⟨"assistant", "b"⟩, ⟨"user", "c"⟩, ⟨"assistant", "d"⟩],
            0, 0⟩ [] []).2
        (HashConversationForAccount "cid" "m" (ToStoredMessages
          ((SanitizeAssistantMessages (StoredToMessages
            [⟨"user", "a"⟩, ⟨"assistant", "b"⟩, ⟨"user", "c"⟩, ⟨"assistant", "d"⟩])).drop 1)))
      = some (HashConversationForAccount "cid" "m"
          [⟨"user", "a"⟩, ⟨"assistant", "b"⟩, ⟨"user", "c"⟩, ⟨"assistant", "d"⟩]) ∧
      mlookup (persistConvMaps "acct" "m"
            ⟨"m", "cid", ["t"],
              [⟨"user", "a"⟩, ⟨"assistant", "b"⟩, ⟨"user", "c"⟩, ⟨"assistant", "d"⟩],
              0, 0⟩ [] []).2
          (HashConversationForAccount "acct" "m" (ToStoredMessages
            ((SanitizeAssistantMessages (StoredToMessages
              [⟨"user", "a"⟩, ⟨"assistant", "b"⟩, ⟨"user", "c"⟩, ⟨"assistant", "d"⟩])).drop 1)))
        = some (HashConversationForAccount "cid" "m"
            [⟨"user", "a"⟩, ⟨"assistant", "b"⟩, ⟨"user", "c"⟩, ⟨"assistant", "d"⟩]) :=
  (persist_index_postcondition "acct" "m"
      ⟨"m", "cid", ["t"],
        [⟨"user", "a"⟩, ⟨"assistant", "b"⟩, ⟨"user", "c"⟩, ⟨"assistant", "d"⟩], 0, 0⟩
      [] []).2.1 1 (by decide) (by decide) (by decide) (by decide)

end GeminiWeb
